import Mathlib

/-!
# Verification of the TaskServerSingleUser task persistence and query engine

A shallow embedding of the core logic of `src/server.py`, `src/models.py`
(TaskTakeout/TaskServerSingleUser) in Lean 4, together with theorems settling
the frozen claims about the natural-language specification.

Modelling conventions:
* The SQLite table `tasks` is a `List TaskRec` (`Store`); `db.query(...).first()`
  is `List.find?` in table order; the ORM session's commit-or-rollback discipline
  is modelled by mutating operations returning the untouched input store on every
  error path (no partial writes are observable in the source either, since
  `db.commit()` is only reached at the end of a handler).
* Timestamps are the ISO-8601 strings the source stores; `get_utc_now()` is a
  `now : String` parameter (one instant per request).
* The `tags` column holds the exact `json.dumps` text the source stores, since
  the tag filter does SQL `LIKE` matching against that raw text.  The JSON
  encoder below reproduces `json.dumps` for ASCII content (the only content the
  theorems instantiate); `json.loads` is modelled by a strict parser of that
  canonical form.
* The `task_metadata` column is opaque to the core (never queried, only
  serialized/deserialized at the boundary, and `json.loads (json.dumps d) = d`
  for dicts); it is modelled by the structured value itself, with Python's
  `if metadata:` truthiness being emptiness of the association list.
* Python recursion in `add_task_with_parents` is modelled with explicit fuel;
  `none` models the `RecursionError` the source raises on deep recursion
  (Python's recursion limit), which aborts the request before any commit.
-/

namespace TaskServer

/-- ASCII lower-casing of one character (codes 65–90 are the upper-case
letters), as SQLite's `LIKE` folds case (ASCII-only) and as Python's
`str.lower` acts on ASCII input. -/
def lowC (c : Char) : Char :=
  if 65 ≤ c.toNat ∧ c.toNat ≤ 90 then Char.ofNat (c.toNat + 32) else c

/-- ASCII lower-casing of a character list. -/
def lowL (cs : List Char) : List Char := cs.map lowC

/-- ASCII lower-casing of a string (Python `str.lower` restricted to the ASCII
inputs used throughout; on ASCII text the two agree). -/
def lowS (s : String) : String := ⟨lowL s.data⟩

/-- The characters Python's `str.strip()` removes (ASCII whitespace; `strip`
also removes some Unicode spaces, which no theorem here exercises). -/
def isPyWs (c : Char) : Bool :=
  c = ' ' || c = '\t' || c = '\n' || c = '\r' || c = '\x0b' || c = '\x0c'

/-- Python `str.strip()`. -/
def pyStrip (s : String) : String :=
  ⟨((s.data.dropWhile isPyWs).reverse.dropWhile isPyWs).reverse⟩

/-- All suffixes of a list, longest first (including the list itself and `[]`). -/
def tailsL : List Char → List (List Char)
  | [] => [[]]
  | c :: cs => (c :: cs) :: tailsL cs

/-- Case-insensitive character comparison used by SQLite `LIKE` (ASCII folding). -/
def eqCI (c d : Char) : Bool := lowC c = lowC d

/-- SQLite `LIKE` pattern matching (no ESCAPE clause): `%` matches any run of
characters, `_` matches exactly one character, any other pattern character
matches case-insensitively (ASCII). -/
def likeMatch : List Char → List Char → Bool
  | [], s => s.isEmpty
  | c :: p, s =>
    if c = '%' then (tailsL s).any (fun s2 => likeMatch p s2)
    else if c = '_' then
      match s with
      | [] => false
      | _ :: s2 => likeMatch p s2
    else
      match s with
      | [] => false
      | d :: s2 => eqCI c d && likeMatch p s2

/-- One hexadecimal digit, lower case (as `json.dumps` emits). -/
def hexDig (n : Nat) : Char :=
  if n < 10 then Char.ofNat (48 + n) else Char.ofNat (87 + n)

/-- `json.dumps` escaping of one character (`ensure_ascii=True`): the two-char
escapes, `\u00XX` for other control characters, `\uXXXX` for non-ASCII
(surrogate pairs above the BMP). -/
def jsonEscC (c : Char) : List Char :=
  if c = '"' then ['\\', '"']
  else if c = '\\' then ['\\', '\\']
  else if c = '\n' then ['\\', 'n']
  else if c = '\t' then ['\\', 't']
  else if c = '\r' then ['\\', 'r']
  else if c = '\x08' then ['\\', 'b']
  else if c = '\x0c' then ['\\', 'f']
  else if c.toNat < 0x20 then
    ['\\', 'u', '0', '0', hexDig (c.toNat / 16), hexDig (c.toNat % 16)]
  else if c.toNat < 0x7f then [c]
  else if c.toNat < 0x10000 then
    ['\\', 'u', hexDig (c.toNat / 4096 % 16), hexDig (c.toNat / 256 % 16),
     hexDig (c.toNat / 16 % 16), hexDig (c.toNat % 16)]
  else
    let n := c.toNat - 0x10000
    let hi := 0xd800 + n / 1024
    let lo := 0xdc00 + n % 1024
    ['\\', 'u', hexDig (hi / 4096 % 16), hexDig (hi / 256 % 16),
     hexDig (hi / 16 % 16), hexDig (hi % 16),
     '\\', 'u', hexDig (lo / 4096 % 16), hexDig (lo / 256 % 16),
     hexDig (lo / 16 % 16), hexDig (lo % 16)]

/-- Body of a JSON string literal. -/
def jsonEscL (cs : List Char) : List Char := cs.flatMap jsonEscC

/-- A JSON string literal `"..."`. -/
def jsonQuote (cs : List Char) : List Char := '"' :: jsonEscL cs ++ ['"']

/-- The element list of `json.dumps(list_of_strings)`: items joined by `", "`
(the default separator). -/
def jsonJoin : List (List Char) → List Char
  | [] => []
  | [t] => jsonQuote t
  | t :: u :: rest => jsonQuote t ++ ',' :: ' ' :: jsonJoin (u :: rest)

/-- `json.dumps` of a list of strings, at character-list level. -/
def encTagsL (ts : List (List Char)) : List Char := '[' :: jsonJoin ts ++ [']']

/-- `json.dumps` of a list of strings (what `TaskDB.set_tags` stores). -/
def encTags (ts : List String) : String := ⟨encTagsL (ts.map String.data)⟩

/-- Value of a single JSON string escape character (`\n`, `\"` and friends). -/
def jsonUnescC (c : Char) : Option Char :=
  if c = '"' then some '"'
  else if c = '\\' then some '\\'
  else if c = '/' then some '/'
  else if c = 'n' then some '\n'
  else if c = 't' then some '\t'
  else if c = 'r' then some '\r'
  else if c = 'b' then some '\x08'
  else if c = 'f' then some '\x0c'
  else none

/-- Value of a hexadecimal digit. -/
def hexVal (c : Char) : Option Nat :=
  if '0' ≤ c ∧ c ≤ '9' then some (c.toNat - 48)
  else if 'a' ≤ c ∧ c ≤ 'f' then some (c.toNat - 87)
  else if 'A' ≤ c ∧ c ≤ 'F' then some (c.toNat - 55)
  else none

/-- Parse the body of a JSON string literal up to its closing quote, returning
the decoded content and the remaining input. -/
def parseJStr : List Char → Option (List Char × List Char)
  | [] => none
  | c :: rest =>
    if c = '"' then some ([], rest)
    else if c = '\\' then
      match rest with
      | 'u' :: a :: b :: c2 :: d :: rest3 =>
        match hexVal a, hexVal b, hexVal c2, hexVal d with
        | some va, some vb, some vc, some vd =>
          (match parseJStr rest3 with
           | none => none
           | some (str, r) =>
             some (Char.ofNat (va * 4096 + vb * 256 + vc * 16 + vd) :: str, r))
        | _, _, _, _ => none
      | e :: rest2 =>
        match jsonUnescC e with
        | none => none
        | some u =>
          match parseJStr rest2 with
          | none => none
          | some (str, r) => some (u :: str, r)
      | [] => none
    else
      match parseJStr rest with
      | none => none
      | some (str, r) => some (c :: str, r)

/-- Parse the tail of a canonical `json.dumps` string-list: a sequence of
string literals joined by `", "`, closed by `]` at end of input.  `fuel` bounds
the number of elements (the input length always suffices). -/
def parseJElems (fuel : Nat) (cs : List Char) : Option (List (List Char)) :=
  match fuel with
  | 0 => none
  | fuel + 1 =>
    match cs with
    | [] => none
    | c :: rest =>
      if c = '"' then
        match parseJStr rest with
        | none => none
        | some (str, r) =>
          match r with
          | [] => none
          | r0 :: rtail =>
            if r0 = ']' ∧ rtail = [] then some [str]
            else if r0 = ',' then
              match rtail with
              | [] => none
              | r1 :: r2 =>
                if r1 = ' ' then (parseJElems fuel r2).map (fun l => str :: l)
                else none
            else none
      else none

/-- Parser for the canonical text `json.dumps` produces for a list of strings
(models the successful `json.loads` in `TaskDB.get_tags`; the source never
reads this column except through text it wrote itself). -/
def decTagsL (cs : List Char) : Option (List (List Char)) :=
  match cs with
  | [] => none
  | c :: rest =>
    if c = '[' then
      if rest = [']'] then some [] else parseJElems cs.length rest
    else none

/-- String-level wrapper for `decTagsL`. -/
def decTags (s : String) : Option (List String) :=
  (decTagsL s.data).map (fun l => l.map (fun cs => (⟨cs⟩ : String)))

/-- Python truthiness of an optional string (`None` and `""` are falsy). -/
def strTruthy : Option String → Bool
  | none => false
  | some s => s ≠ ""

/-- Lexicographic (codepoint-wise) comparison of character lists: SQLite's
BINARY collation on the ASCII text stored here. -/
def lexLt : List Char → List Char → Bool
  | [], [] => false
  | [], _ :: _ => true
  | _ :: _, [] => false
  | c :: cs, d :: ds =>
    if c.toNat < d.toNat then true
    else if d.toNat < c.toNat then false
    else lexLt cs ds

/-- String comparison under SQLite's BINARY collation. -/
def strLt (a b : String) : Bool := lexLt a.data b.data

/-- The metadata dict: an opaque key/value object.  The `task_metadata` column
stores `json.dumps` of it; since the core never inspects that text and
`json.loads` inverts `json.dumps` on dicts, the column is modelled by the
structured value itself (values modelled as strings — the core is agnostic). -/
abbrev Meta : Type := List (String × String)

/-- Python truthiness of an optional dict (`None` and `{}` are falsy). -/
def metaTruthy : Option Meta → Bool
  | none => false
  | some m => m ≠ ([] : Meta)

/-- A row of the `tasks` table (`models.TaskDB`).  `tags` holds the raw JSON
text column; `task_metadata` the (opaque) metadata object, see `Meta`. -/
structure TaskRec where
  id : String
  title : String
  description : Option String
  completed : Bool
  archived : Bool
  priority : Int
  due_date : Option String
  completion_date : Option String
  parent_id : Option String
  tags : Option String
  task_metadata : Option Meta
  created_at : String
  updated_at : String
deriving DecidableEq

/-- The single-user task table, in insertion order. -/
abbrev Store : Type := List TaskRec

/-- `db.query(TaskDB).filter(TaskDB.id == i).first()`. -/
def findById (s : Store) (i : String) : Option TaskRec :=
  s.find? (fun t => t.id = i)

/-- The ids of a store, in table order. -/
def storeIds (s : Store) : List String := s.map (fun t => t.id)

/-- `TaskDB.set_tags`: strip each tag and store the JSON text; an empty list
stores NULL.  (The source comment claims lower-casing; the code only strips.) -/
def setTags (ts : List String) : Option String :=
  if ts = [] then none else some (encTags (ts.map pyStrip))

/-- `TaskDB.get_tags`: parse the JSON column, `[]` for NULL.  (`json.loads`
raising on malformed text is not reachable from text the source wrote.) -/
def getTags : Option String → List String
  | none => []
  | some s => (decTags s).getD []

/-- `TaskDB.set_metadata` (`if metadata:` — `None` and `{}` store NULL). -/
def setMeta (m : Option Meta) : Option Meta :=
  if metaTruthy m then m else none

/-- `TaskDB.get_metadata` (NULL reads back as `None`). -/
def getMeta (m : Option Meta) : Option Meta := m

/-- The wire schema `Task` (also `TaskImport`, which is an alias class):
the Pydantic response/import record. -/
structure TaskIO where
  id : String
  title : String
  description : Option String
  completed : Bool
  archived : Bool
  priority : Int
  due_date : Option String
  completion_date : Option String
  parent_id : Option String
  tags : Option (List String)
  metadata : Option Meta
  created_at : String
  updated_at : String
deriving DecidableEq

/-- `server.db_to_task`. -/
def dbToTask (t : TaskRec) : TaskIO where
  id := t.id
  title := t.title
  description := t.description
  completed := t.completed
  archived := t.archived
  priority := t.priority
  due_date := t.due_date
  completion_date := t.completion_date
  parent_id := t.parent_id
  tags := some (getTags t.tags)
  metadata := getMeta t.task_metadata
  created_at := t.created_at
  updated_at := t.updated_at

/-- `server.calculate_etag`: the quoted `updated_at` string. -/
def calculateEtag (t : TaskRec) : String := "\"" ++ t.updated_at ++ "\""

/-- Domain error outcomes surfaced by the handlers (HTTP codes in comments). -/
inductive HErr where
  /-- 404 -/
  | notFound
  /-- 412, from `If-Unmodified-Since` or `If-Match` -/
  | preconditionFailed
  /-- 422 "Parent task not found" -/
  | parentNotFound
  /-- 422 "Task cannot be its own parent" -/
  | selfParent
  /-- 500: unparseable datetime in `If-Unmodified-Since` or naive/aware mix
  (Python `ValueError`/`TypeError` inside the handler) -/
  | internalError
deriving DecidableEq

/-- Import failure outcomes. -/
inductive ImpErr where
  /-- 422 "Duplicate IDs in import payload" -/
  | duplicateIds
  /-- 409, with the conflicting ids -/
  | conflict (ids : List String)
  /-- 500: `RecursionError` in `add_task_with_parents` (no cycle guard) -/
  | recursionLimit
deriving DecidableEq

/-- `on_conflict` query parameter (pattern-validated). -/
inductive Policy where
  | fail
  | skip
  | upsert
deriving DecidableEq

/-! ## Query engine (`server.list_tasks`) -/

/-- Query parameters of `GET /tasks` (all validated by the transport layer);
`now` is the request instant used by the `overdue` filter. -/
structure ListParams where
  completed : Option Bool
  archived : Option Bool
  priority : Option Int
  tag : Option (List String)
  parent_id : Option String
  search : Option String
  due_before : Option String
  due_after : Option String
  overdue : Option Bool
  sort_by : String
  order : String
  limit : Nat
  offset : Nat
  now : String

/-- `completed` filter (`if completed is not None`). -/
def fCompleted (p : ListParams) (t : TaskRec) : Bool :=
  match p.completed with
  | none => true
  | some b => t.completed = b

/-- `archived` filter. -/
def fArchived (p : ListParams) (t : TaskRec) : Bool :=
  match p.archived with
  | none => true
  | some b => t.archived = b

/-- `priority` filter. -/
def fPriority (p : ListParams) (t : TaskRec) : Bool :=
  match p.priority with
  | none => true
  | some v => t.priority = v

/-- Parent filter: with no `parent_id` parameter (or the literal string
`"null"`) only root tasks (`parent_id IS NULL`) match; otherwise exact match. -/
def fParent (p : ListParams) (t : TaskRec) : Bool :=
  match p.parent_id with
  | none => t.parent_id = none
  | some pid => if pid = "null" then t.parent_id = none else t.parent_id = some pid

/-- One tag filter: `TaskDB.tags LIKE '%"<tag.strip().lower()>"%'`.  A NULL
`tags` column never matches (SQL three-valued logic drops the row). -/
def tagLike (ft : String) (col : Option String) : Bool :=
  match col with
  | none => false
  | some s => likeMatch ('%' :: '"' :: (lowS (pyStrip ft)).data ++ ['"', '%']) s.data

/-- Tag filter (`if tag: for tag_filter in tag: ...` — all supplied tags must
match; an empty filter list is falsy and applies no filter). -/
def fTags (p : ListParams) (t : TaskRec) : Bool :=
  match p.tag with
  | none => true
  | some fts => fts.all (fun ft => tagLike ft t.tags)

/-- Search filter: `title LIKE '%q%' OR description LIKE '%q%'` (`if search:`
makes an empty string a no-op; a NULL description only matches via title). -/
def fSearch (p : ListParams) (t : TaskRec) : Bool :=
  match p.search with
  | none => true
  | some q =>
    if q = "" then true
    else
      likeMatch ('%' :: q.data ++ ['%']) t.title.data ||
        (match t.description with
         | none => false
         | some d => likeMatch ('%' :: q.data ++ ['%']) d.data)

/-- `due_before` filter: lexicographic `due_date < due_before`; NULL `due_date`
never matches (`if due_before:` skips an empty parameter). -/
def fDueBefore (p : ListParams) (t : TaskRec) : Bool :=
  match p.due_before with
  | none => true
  | some b =>
    if b = "" then true
    else
      match t.due_date with
      | none => false
      | some d => strLt d b

/-- `due_after` filter: `due_date > due_after`. -/
def fDueAfter (p : ListParams) (t : TaskRec) : Bool :=
  match p.due_after with
  | none => true
  | some b =>
    if b = "" then true
    else
      match t.due_date with
      | none => false
      | some d => strLt b d

/-- `overdue` filter: `due_date < now AND completed == False` — applied only
when the parameter is truthy (`overdue=false` applies no filter). -/
def fOverdue (p : ListParams) (t : TaskRec) : Bool :=
  match p.overdue with
  | some true =>
    (match t.due_date with
     | none => false
     | some d => strLt d p.now) && !t.completed
  | _ => true

/-- Conjunction of all `list_tasks` filters, in source order. -/
def matchesFilters (p : ListParams) (t : TaskRec) : Bool :=
  fCompleted p t && fArchived p t && fPriority p t && fParent p t &&
    fTags p t && fSearch p t && fDueBefore p t && fDueAfter p t && fOverdue p t

/-- Three-way comparison of strings. -/
def ordStr (a b : String) : Ordering :=
  if strLt a b then .lt else if strLt b a then .gt else .eq

/-- Three-way comparison of integers. -/
def ordInt (a b : Int) : Ordering :=
  if a < b then .lt else if b < a then .gt else .eq

/-- Three-way comparison of booleans (`false < true`, as SQLite stores 0/1). -/
def ordBool (a b : Bool) : Ordering :=
  if a = b then .eq else if a = false then .lt else .gt

/-- Apply the requested direction to a comparison (`desc` reverses). -/
def dirOrd (asc : Bool) (o : Ordering) : Ordering :=
  if asc then o else o.swap

/-- Comparison of nullable sort keys with `nullslast()`: NULL sorts after
every value regardless of direction. -/
def ordOptNullsLast (asc : Bool) : Option String → Option String → Ordering
  | none, none => .eq
  | none, some _ => .gt
  | some _, none => .lt
  | some a, some b => dirOrd asc (ordStr a b)

/-- The primary sort comparison selected by `sort_by`/`order` (the `if/elif`
chain of the source, with the same `created_at` fallback; `title` and
`due_date` get `nullslast`, `title` being non-nullable anyway). -/
def primOrd (p : ListParams) (a b : TaskRec) : Ordering :=
  let asc := p.order = "asc"
  if p.sort_by = "updated_at" then dirOrd asc (ordStr a.updated_at b.updated_at)
  else if p.sort_by = "title" then ordOptNullsLast asc (some a.title) (some b.title)
  else if p.sort_by = "priority" then dirOrd asc (ordInt a.priority b.priority)
  else if p.sort_by = "due_date" then ordOptNullsLast asc a.due_date b.due_date
  else if p.sort_by = "completed" then dirOrd asc (ordBool a.completed b.completed)
  else dirOrd asc (ordStr a.created_at b.created_at)

/-- Total "comes no later than" relation realising the ORDER BY clause:
primary key comparison, ties broken by `created_at` descending. -/
def sortLe (p : ListParams) (a b : TaskRec) : Bool :=
  match primOrd p a b with
  | .lt => true
  | .gt => false
  | .eq => if strLt a.created_at b.created_at then false else true

/-- Stable insertion of one element into a sorted list. -/
def insertLe {α : Type} (le : α → α → Bool) (x : α) : List α → List α
  | [] => [x]
  | y :: l => if le x y then x :: y :: l else y :: insertLe le x l

/-- Stable insertion sort: a deterministic model of the engine's ORDER BY. -/
def isortLe {α : Type} (le : α → α → Bool) : List α → List α
  | [] => []
  | x :: l => insertLe le x (isortLe le l)

/-- The filtered set (order of the table) — its size is the reported `total`,
computed before pagination. -/
def listFiltered (p : ListParams) (s : Store) : List TaskRec :=
  s.filter (fun t => matchesFilters p t)

/-- `list_tasks`: rows of the returned page (after sort, offset, limit) and the
total count of the filtered set. -/
def listTasks (p : ListParams) (s : Store) : List TaskRec × Nat :=
  let fl := listFiltered p s
  (((isortLe (sortLe p) fl).drop p.offset).take p.limit, fl.length)

/-- The `TaskList` response schema. -/
structure TaskListOut where
  data : List TaskIO
  total : Nat
  limit : Nat
  offset : Nat
deriving DecidableEq

/-- The full `GET /tasks` response. -/
def listTasksEndpoint (p : ListParams) (s : Store) : TaskListOut :=
  let (rows, total) := listTasks p s
  { data := rows.map dbToTask, total := total, limit := p.limit, offset := p.offset }

/-! ## `server.create_task` -/

/-- The `TaskInput` schema (`title` required; optional fields may be absent). -/
structure TaskInput where
  title : String
  description : Option String
  completed : Option Bool
  archived : Option Bool
  priority : Option Int
  due_date : Option String
  tags : Option (List String)
  metadata : Option Meta
  parent_id : Option String
deriving DecidableEq

/-- The row `create_task` builds before validation: defaults applied, tags and
metadata set when supplied, `completion_date` derived when created completed. -/
def buildCreate (now freshId : String) (inp : TaskInput) : TaskRec :=
  let t0 : TaskRec :=
    { id := freshId
      title := inp.title
      description := inp.description
      completed := inp.completed.getD false
      archived := inp.archived.getD false
      priority := inp.priority.getD 0
      due_date := inp.due_date
      completion_date := none
      parent_id := inp.parent_id
      tags := none
      task_metadata := none
      created_at := now
      updated_at := now }
  let t1 := match inp.tags with
    | none => t0
    | some ts => { t0 with tags := setTags ts }
  let t2 := match inp.metadata with
    | none => t1
    | some m => { t1 with task_metadata := setMeta (some m) }
  if t2.completed then { t2 with completion_date := some now } else t2

/-- `POST /tasks`.  `freshId` stands for `str(uuid4())`, `now` for
`get_utc_now()`.  On the 422 paths nothing is committed, so the input store is
returned unchanged. -/
def createTask (now freshId : String) (inp : TaskInput) (s : Store) :
    Except HErr TaskRec × Store :=
  let t3 := buildCreate now freshId inp
  if strTruthy t3.parent_id then
    match findById s (t3.parent_id.getD "") with
    | none => (.error .parentNotFound, s)
    | some _ => (.ok t3, s ++ [t3])
  else (.ok t3, s ++ [t3])

/-! ## `server.parse_datetime` and the concurrency preconditions -/

/-- Value of a decimal digit. -/
def digVal (c : Char) : Option Nat :=
  if '0' ≤ c ∧ c ≤ '9' then some (c.toNat - 48) else none

/-- Two decimal digits. -/
def d2 (a b : Char) : Option Nat := do
  let x ← digVal a
  let y ← digVal b
  pure (x * 10 + y)

/-- Days since the Unix epoch of a proleptic-Gregorian civil date (the order
`datetime` comparison induces). -/
def daysFromCivil (y : Int) (m d : Nat) : Int :=
  let y2 : Int := if m ≤ 2 then y - 1 else y
  let era : Int := (if y2 ≥ 0 then y2 else y2 - 399) / 400
  let yoe : Int := y2 - era * 400
  let mp : Nat := (m + 9) % 12
  let doy : Int := (153 * mp + 2) / 5 + d - 1
  let doe : Int := yoe * 365 + yoe / 4 - yoe / 100 + doy
  era * 146097 + doe - 719468

/-- Fractional seconds: one to six digits after the point, scaled to
microseconds. -/
def parseFrac (cs : List Char) : Option (Nat × List Char) :=
  let digs := cs.takeWhile (fun c => (digVal c).isSome)
  let rest := cs.dropWhile (fun c => (digVal c).isSome)
  if digs = [] ∨ 6 < digs.length then none
  else
    let v := digs.foldl (fun acc c => acc * 10 + ((digVal c).getD 0)) 0
    some (v * 10 ^ (6 - digs.length), rest)

/-- Optional UTC offset `±HH:MM` terminating the string: microsecond shift and
awareness flag. -/
def parseOffset (cs : List Char) : Option (Int × Bool) :=
  match cs with
  | [] => some (0, false)
  | ['+', h1, h2, ':', m1, m2] => do
    let h ← d2 h1 h2
    let m ← d2 m1 m2
    pure (-(((h : Int) * 60 + m) * 60000000), true)
  | ['-', h1, h2, ':', m1, m2] => do
    let h ← d2 h1 h2
    let m ← d2 m1 m2
    pure ((((h : Int) * 60 + m) * 60000000), true)
  | _ => none

/-- Time-of-day part `HH:MM[:SS[.ffffff]][±HH:MM]`: microseconds within the
day, then the offset. -/
def parseTime (cs : List Char) : Option (Int × (Int × Bool)) :=
  match cs with
  | h1 :: h2 :: ':' :: m1 :: m2 :: rest => do
    let h ← d2 h1 h2
    let m ← d2 m1 m2
    match rest with
    | ':' :: s1 :: s2 :: rest2 => do
      let sec ← d2 s1 s2
      match rest2 with
      | '.' :: rest3 => do
        let (us, rest4) ← parseFrac rest3
        let off ← parseOffset rest4
        pure (((h * 3600 + m * 60 + sec) * 1000000 + us : Int), off)
      | _ => do
        let off ← parseOffset rest2
        pure (((h * 3600 + m * 60 + sec) * 1000000 : Int), off)
    | _ => do
      let off ← parseOffset rest
      pure (((h * 3600 + m * 60) * 1000000 : Int), off)
  | _ => none

/-- `datetime.fromisoformat` on the shapes this service produces and accepts:
microseconds since the epoch (offset applied) and whether the value is
timezone-aware.  Uncovered shapes yield `none` (a `ValueError` in Python). -/
def isoParse (cs : List Char) : Option (Int × Bool) :=
  match cs with
  | y1 :: y2 :: y3 :: y4 :: '-' :: mo1 :: mo2 :: '-' :: d1 :: dd2 :: rest => do
    let a ← digVal y1
    let b ← digVal y2
    let c ← digVal y3
    let d ← digVal y4
    let mo ← d2 mo1 mo2
    let dd ← d2 d1 dd2
    let y : Int := ((a * 10 + b) * 10 + c) * 10 + d
    let base := daysFromCivil y mo dd * 86400000000
    match rest with
    | [] => pure (base, false)
    | 'T' :: rest2 => do
      let (tus, off, aware) ← parseTime rest2
      pure (base + tus + off, aware)
    | ' ' :: rest2 => do
      let (tus, off, aware) ← parseTime rest2
      pure (base + tus + off, aware)
    | _ => none
  | _ => none

/-- The `Z` → `+00:00` rewrite `parse_datetime` performs before parsing. -/
def zFix (s : String) : List Char :=
  match s.data.reverse with
  | 'Z' :: r => r.reverse ++ ['+', '0', '0', ':', '0', '0']
  | _ => s.data

/-- `server.parse_datetime`: `Ok none` for a falsy input, `Ok (some v)` for a
parseable one, `error` for a Python exception (unparseable text). -/
def parseDatetime (o : Option String) : Except Unit (Option (Int × Bool)) :=
  match o with
  | none => .ok none
  | some s =>
    if s = "" then .ok none
    else
      match isoParse (zFix s) with
      | none => .error ()
      | some v => .ok (some v)

/-- The `If-Unmodified-Since` check of `update_task`: `ok true` continues,
`ok false` is the 412, `error` the unhandled Python exception (unparseable
header or naive/aware comparison `TypeError`). -/
def iusCheck (t : TaskRec) (ius : Option String) : Except Unit Bool :=
  if strTruthy ius then
    match parseDatetime (some t.updated_at), parseDatetime ius with
    | .error _, _ => .error ()
    | _, .error _ => .error ()
    | .ok (some (tv, ta)), .ok (some (cv, ca)) =>
      if ta ≠ ca then .error ()
      else if cv < tv then .ok false
      else .ok true
    | _, _ => .ok true
  else .ok true

/-! ## `server.update_task` -/

/-- The `TaskUpdate` schema.  Outer `Option` is field presence
(`exclude_unset`); for the nullable columns the inner `Option` distinguishes an
explicit `null` (which clears) from a value.  For the NOT NULL columns
(`title`, `completed`, `archived`, `priority`) an explicit `null` would only
reach the storage layer and fail its constraint at commit; that degenerate
payload is outside this model, so those fields carry their value directly. -/
structure TaskUpdatePayload where
  title : Option String
  description : Option (Option String)
  completed : Option Bool
  archived : Option Bool
  priority : Option Int
  due_date : Option (Option String)
  tags : Option (Option (List String))
  metadata : Option (Option Meta)
  parent_id : Option (Option String)
deriving DecidableEq

/-- The plain `setattr` part of the `update_task` field loop, in model field
order: only the fields present in the payload change.  `tags` goes through
`set_tags` (an explicit `null` behaves like `[]`), `metadata` through
`set_metadata`. -/
def updateFields (pl : TaskUpdatePayload) (t : TaskRec) : TaskRec :=
  let t1 := match pl.title with
    | none => t
    | some v => { t with title := v }
  let t2 := match pl.description with
    | none => t1
    | some v => { t1 with description := v }
  let t3 := match pl.completed with
    | none => t2
    | some v => { t2 with completed := v }
  let t4 := match pl.archived with
    | none => t3
    | some v => { t3 with archived := v }
  let t5 := match pl.priority with
    | none => t4
    | some v => { t4 with priority := v }
  let t6 := match pl.due_date with
    | none => t5
    | some v => { t5 with due_date := v }
  let t7 := match pl.tags with
    | none => t6
    | some v => { t6 with tags := setTags (v.getD []) }
  match pl.metadata with
  | none => t7
  | some v => { t7 with task_metadata := setMeta v }

/-- The full field loop of `update_task`: the plain fields, then the
`parent_id` case, which validates against the store (existing parent, no
self-reference — both skipped for a falsy value) and can fail with a 422. -/
def applyUpdate (pl : TaskUpdatePayload) (s : Store) (tid : String) (t : TaskRec) :
    Except HErr TaskRec :=
  let t8 := updateFields pl t
  match pl.parent_id with
  | none => .ok t8
  | some v =>
    if strTruthy v then
      match findById s (v.getD "") with
      | none => .error .parentNotFound
      | some _ =>
        if v = some tid then .error .selfParent
        else .ok { t8 with parent_id := v }
    else .ok { t8 with parent_id := v }

/-- The tail of `update_task`: derive `completion_date` when `completed` was
among the updated fields and its value flipped, then refresh `updated_at`. -/
def finishUpdate (now : String) (pl : TaskUpdatePayload) (old_completed : Bool)
    (t9 : TaskRec) : TaskRec :=
  let t10 :=
    if pl.completed.isSome then
      if t9.completed ∧ ¬ old_completed then
        { t9 with completion_date := some now }
      else if ¬ t9.completed ∧ old_completed then
        { t9 with completion_date := none }
      else t9
    else t9
  { t10 with updated_at := now }

/-- `PATCH /tasks/{id}`: preconditions, field loop, `completion_date`
derivation on a `completed` edge, `updated_at` refresh, commit.  Every error
path leaves the store untouched (nothing was committed). -/
def updateTask (now tid : String) (pl : TaskUpdatePayload)
    (ius imatch : Option String) (s : Store) : Except HErr TaskRec × Store :=
  match findById s tid with
  | none => (.error .notFound, s)
  | some t =>
    match iusCheck t ius with
    | .error _ => (.error .internalError, s)
    | .ok false => (.error .preconditionFailed, s)
    | .ok true =>
      if strTruthy imatch ∧ imatch ≠ some (calculateEtag t) then
        (.error .preconditionFailed, s)
      else
        let old_completed := t.completed
        match applyUpdate pl s tid t with
        | .error e => (.error e, s)
        | .ok t9 =>
          let t11 := finishUpdate now pl old_completed t9
          (.ok t11, s.map (fun x => if x.id = tid then t11 else x))

/-! ## `server.export_tasks` -/

/-- `created_at` ascending (the `order_by(TaskDB.created_at)` of the export
queries). -/
def createdAtLe (a b : TaskRec) : Bool :=
  if strLt b.created_at a.created_at then false else true

/-- `GET /tasks/export`: root tasks (by `created_at`), then all child tasks
(by `created_at`), serialized. -/
def exportTasks (s : Store) : List TaskIO :=
  let roots := isortLe createdAtLe (s.filter (fun t => t.parent_id = none))
  let children := isortLe createdAtLe (s.filter (fun t => t.parent_id ≠ none))
  (roots ++ children).map dbToTask

/-! ## `server.import_tasks` -/

/-- The new row built by the import insert branch: client-supplied fields and
timestamps verbatim; `task.tags if task.tags else []` through `set_tags`. -/
def mkImportRec (task : TaskIO) : TaskRec :=
  { id := task.id
    title := task.title
    description := task.description
    completed := task.completed
    archived := task.archived
    priority := task.priority
    due_date := task.due_date
    completion_date := task.completion_date
    parent_id := task.parent_id
    tags := setTags (task.tags.getD [])
    task_metadata := setMeta task.metadata
    created_at := task.created_at
    updated_at := task.updated_at }

/-- The upsert branch: full in-place replacement of every non-id field with the
payload's values (timestamps preserved verbatim from the payload). -/
def applyUpsert (db_task : TaskRec) (task : TaskIO) : TaskRec :=
  { db_task with
    title := task.title
    description := task.description
    completed := task.completed
    archived := task.archived
    priority := task.priority
    due_date := task.due_date
    completion_date := task.completion_date
    parent_id := task.parent_id
    tags := setTags (task.tags.getD [])
    task_metadata := setMeta task.metadata
    created_at := task.created_at
    updated_at := task.updated_at }

/-- `tasks_by_id` lookup.  The source's dict keeps the last record for a
duplicated id; duplicates were already rejected, so first-match is the same. -/
def batchFind (batch : List TaskIO) (p : String) : Option TaskIO :=
  batch.find? (fun x => x.id = p)

/-- One iteration of the import write loop: upsert in place for a pre-existing
id under the `upsert` policy (counted only when the row is found), otherwise
insert a new row; the accumulator carries `imported_count` and the store. -/
def importStep (onc : Policy) (existing_ids : List String)
    (acc : Nat × Store) (task : TaskIO) : Nat × Store :=
  if onc = .upsert ∧ existing_ids.contains task.id then
    match findById acc.2 task.id with
    | none => acc
    | some db_task =>
      (acc.1 + 1,
       acc.2.map (fun x => if x.id = task.id then applyUpsert db_task task else x))
  else (acc.1 + 1, acc.2 ++ [mkImportRec task])

/-- `add_task_with_parents`, with explicit recursion fuel (`none` is Python's
`RecursionError`).  The source's `processed` set always holds exactly the ids
of `sorted_tasks` (they are appended in lockstep), so only the list is kept. -/
def addTaskWithParents (fuel : Nat) (batch : List TaskIO) (task : TaskIO)
    (sorted : List TaskIO) : Option (List TaskIO) :=
  match fuel with
  | 0 => none
  | fuel + 1 =>
    if (sorted.map (fun x => x.id)).contains task.id then some sorted
    else
      if strTruthy task.parent_id then
        match batchFind batch (task.parent_id.getD "") with
        | some pt =>
          match addTaskWithParents fuel batch pt sorted with
          | none => none
          | some s2 => some (s2 ++ [task])
        | none => some (sorted ++ [task])
      else some (sorted ++ [task])

/-- The reordering loop: fold `add_task_with_parents` over the batch. -/
def sortBatch (fuel : Nat) (batch : List TaskIO) : Option (List TaskIO) :=
  batch.foldl
    (fun acc t =>
      match acc with
      | none => none
      | some sorted => addTaskWithParents fuel batch t sorted)
    (some [])

/-- `POST /tasks/import`.  A recursion depth of `batch.length + 1` completes
every terminating run of the source (a parent chain without revisits cannot be
longer than the batch); deeper recursion models the `RecursionError` a cyclic
batch provokes, which aborts the request before the commit. -/
def importTasks (s : Store) (batch : List TaskIO) (validate_only : Bool)
    (onc : Policy) : Except ImpErr Nat × Store :=
  let ids := batch.map (fun t => t.id)
  if ¬ ids.Nodup then (.error .duplicateIds, s)
  else
    let existing_ids := (s.filter (fun t => ids.contains t.id)).map (fun t => t.id)
    if existing_ids ≠ [] ∧ onc = .fail then (.error (.conflict existing_ids), s)
    else
      let batch2 :=
        if existing_ids ≠ [] ∧ onc = .skip then
          batch.filter (fun t => ¬ existing_ids.contains t.id)
        else batch
      if validate_only then (.ok batch2.length, s)
      else
        match sortBatch (batch2.length + 1) batch2 with
        | none => (.error .recursionLimit, s)
        | some sorted =>
          let res := sorted.foldl (importStep onc existing_ids) (0, s)
          (.ok res.1, res.2)

/-! ## Proof-layer notions for the import pipeline

The batch-internal parent relation of `add_task_with_parents` (a record steps
to the batch record its truthy `parent_id` resolves to), strict reachability
along it, the invariants of the accumulated `sorted_tasks` list, and decidable
depth-bounded acyclicity checkers for batches and stores. -/

/-- Ids of a batch, in order. -/
def batchIds (l : List TaskIO) : List String := l.map (fun t => t.id)

/-- Strict (one or more steps) reachability along the in-batch parent relation
that `add_task_with_parents` recurses on. -/
inductive ReachS (batch : List TaskIO) : TaskIO → TaskIO → Prop where
  | single {x y : TaskIO} (hp : strTruthy x.parent_id = true)
      (hf : batchFind batch (x.parent_id.getD "") = some y) : ReachS batch x y
  | tail {x y z : TaskIO} (hp : strTruthy x.parent_id = true)
      (hf : batchFind batch (x.parent_id.getD "") = some y)
      (hr : ReachS batch y z) : ReachS batch x z

/-- A record lying on an in-batch parent cycle. -/
def OnCycle (batch : List TaskIO) (x : TaskIO) : Prop := ReachS batch x x

/-- The accumulated `sorted_tasks` list is parent-closed: the resolved in-batch
parent of any member is already a member. -/
def PClosed (batch : List TaskIO) (acc : List TaskIO) : Prop :=
  ∀ y ∈ acc, strTruthy y.parent_id = true →
    ∀ p, batchFind batch (y.parent_id.getD "") = some p → p ∈ acc

/-- Every member's resolved in-batch parent occurs strictly before it. -/
def OrderedParents (batch : List TaskIO) (l : List TaskIO) : Prop :=
  ∀ l1 y l2, l = l1 ++ y :: l2 → strTruthy y.parent_id = true →
    ∀ p, batchFind batch (y.parent_id.getD "") = some p → p ∈ l1

/-- Depth-bounded termination checker for the in-batch parent chain from a
record (`false` means the chain did not reach a root within the budget). -/
def batchDepth : Nat → List TaskIO → TaskIO → Bool
  | 0, _, _ => false
  | fuel + 1, batch, x =>
    if strTruthy x.parent_id then
      match batchFind batch (x.parent_id.getD "") with
      | none => true
      | some pt => batchDepth fuel batch pt
    else true

/-- Acyclicity of a batch's internal parent references: with `n` records an
acyclic chain visits at most `n` distinct records, so budget `n + 1` decides. -/
def batchAcyclic (batch : List TaskIO) : Bool :=
  batch.all (fun x => batchDepth (batch.length + 1) batch x)

/-- Depth-bounded termination checker for stored parent chains. -/
def storeDepth : Nat → Store → TaskRec → Bool
  | 0, _, _ => false
  | fuel + 1, s, t =>
    if strTruthy t.parent_id then
      match findById s (t.parent_id.getD "") with
      | none => true
      | some pt => storeDepth fuel s pt
    else true

/-- Acyclicity of the stored parent graph. -/
def storeAcyclic (s : Store) : Bool :=
  s.all (fun t => storeDepth (s.length + 1) s t)

/-! ## Canonical (well-formed) stored columns

Reachable stores only hold `tags` text written by `set_tags` and metadata
written by `set_metadata`; these decidable checkers capture that canonical
shape (ASCII content without JSON-escaped characters, the only content the
round-trip theorems instantiate). -/

/-- Printable ASCII that `json.dumps` emits verbatim (no escaping). -/
def plainChar (c : Char) : Bool :=
  decide (0x20 ≤ c.toNat) && decide (c.toNat < 0x7f) && c ≠ '"' && c ≠ '\\'

/-- A string of plain characters. -/
def plainStr (s : String) : Bool := s.data.all plainChar

/-- A tag as `set_tags` stores it: non-empty, already stripped, plain. -/
def canonTag (g : String) : Bool :=
  g ≠ "" && pyStrip g = g && plainStr g

/-- A filter-tag character that every layer treats literally: plain (so
`json.dumps` stores it verbatim), not a `LIKE` wildcard (`%`/`_`), and not one
of the JSON punctuation characters of the stored text (`,`, space, `[`, `]`;
plain already excludes `"` and `\`). -/
def simpleChar (c : Char) : Bool :=
  plainChar c && c ≠ '%' && c ≠ '_' && c ≠ ',' && c ≠ ' ' && c ≠ '[' && c ≠ ']'

/-- A non-empty string of simple characters (the shape of tag-filter values
for which `LIKE` degenerates to literal substring search). -/
def simpleStr (s : String) : Bool := s ≠ "" && s.data.all simpleChar

/-- The `tags` column is NULL or the canonical encoding of canonical tags. -/
def wfTagsCol : Option String → Bool
  | none => true
  | some str =>
    match decTags str with
    | none => false
    | some ts => ts ≠ ([] : List String) && ts.all canonTag && encTags ts = str

/-- The metadata column is NULL or a non-empty object (what `set_metadata`
writes). -/
def wfMetaCol : Option Meta → Bool
  | none => true
  | some m => m ≠ ([] : Meta)

/-- A stored row with canonical serialized columns. -/
def wfRec (t : TaskRec) : Bool := wfTagsCol t.tags && wfMetaCol t.task_metadata

/-- A well-formed store: unique ids and canonical columns. -/
def wfStore (s : Store) : Bool :=
  decide (storeIds s).Nodup && s.all wfRec

/-! ## Key invariants and concrete sample data

`selfParentFree` is the hierarchy invariant of §8 of the specification in the
form the code actually maintains: a stored task equals its own parent only in
the empty-string-id corner (Python truthiness lets `parent_id = ""` bypass
every hierarchy check, and such a record can be imported).  The `sample*`
definitions are concrete inputs used to instantiate theorems with hypotheses. -/

/-- Amended hierarchy invariant: `parent_id = id` only for the empty id. -/
def selfParentFree (s : Store) : Bool :=
  s.all (fun t => t.parent_id ≠ some t.id || t.id = "")

/-- The literal claim's invariant: no stored task is its own parent. -/
def noSelfParent (s : Store) : Bool :=
  s.all (fun t => t.parent_id ≠ some t.id)

/-- A concrete import record (for witnesses and counterexamples). -/
def sampleIn (i : String) (p : Option String) : TaskIO :=
  { id := i
    title := "task " ++ i
    description := none
    completed := false
    archived := false
    priority := 0
    due_date := none
    completion_date := none
    parent_id := p
    tags := none
    metadata := none
    created_at := "2024-01-01T00:00:00Z"
    updated_at := "2024-01-01T00:00:00Z" }

/-- A concrete stored row. -/
def sampleRec (i : String) (p : Option String) (tg : Option String) : TaskRec :=
  { id := i
    title := "task " ++ i
    description := none
    completed := false
    archived := false
    priority := 0
    due_date := none
    completion_date := none
    parent_id := p
    tags := tg
    task_metadata := none
    created_at := "2024-01-01T00:00:00Z"
    updated_at := "2024-01-01T00:00:00Z" }

/-- The all-absent `PATCH` payload. -/
def noChange : TaskUpdatePayload :=
  { title := none
    description := none
    completed := none
    archived := none
    priority := none
    due_date := none
    tags := none
    metadata := none
    parent_id := none }

/-- Defaulted `GET /tasks` parameters. -/
def defaultParams : ListParams :=
  { completed := none
    archived := none
    priority := none
    tag := none
    parent_id := none
    search := none
    due_before := none
    due_after := none
    overdue := none
    sort_by := "created_at"
    order := "desc"
    limit := 100
    offset := 0
    now := "2024-06-01T00:00:00Z" }

/-! ## C8: duplicate ids in an import batch -/

/-- **C8.**  A batch in which some id occurs on two or more records is rejected
with the duplicate-id `ValidationError` before anything else is consulted: the
outcome is the same for every `on_conflict` policy and for both values of
`validate_only`, and the store is returned unchanged. -/
theorem c8_import_duplicate_ids_rejected (s : Store) (batch : List TaskIO)
    (v : Bool) (onc : Policy)
    (h : ¬ (batch.map (fun t => t.id)).Nodup) :
    importTasks s batch v onc = (.error .duplicateIds, s) := by
  unfold importTasks
  rw [if_pos h]

/-- Witness for C8 at a concrete two-record batch sharing an id. -/
theorem c8_import_duplicate_ids_rejected_witness :
    importTasks [] [sampleIn "a" none, sampleIn "a" none] true .skip =
      (.error .duplicateIds, []) ∧
    importTasks [] [sampleIn "a" none, sampleIn "a" none] false .upsert =
      (.error .duplicateIds, []) :=
  ⟨c8_import_duplicate_ids_rejected _ _ _ _ (by decide),
   c8_import_duplicate_ids_rejected _ _ _ _ (by decide)⟩

/-! ## Update lemmas (C5, C7) -/

theorem updateFields_completion_date (pl : TaskUpdatePayload) (t : TaskRec) :
    (updateFields pl t).completion_date = t.completion_date := by
  unfold updateFields
  cases pl.metadata <;> cases pl.tags <;> cases pl.due_date <;> cases pl.priority <;>
    cases pl.archived <;> cases pl.completed <;> cases pl.description <;>
    cases pl.title <;> rfl

theorem updateFields_completed (pl : TaskUpdatePayload) (t : TaskRec) :
    (updateFields pl t).completed = pl.completed.getD t.completed := by
  unfold updateFields
  cases pl.metadata <;> cases pl.tags <;> cases pl.due_date <;> cases pl.priority <;>
    cases pl.archived <;> cases pl.completed <;> cases pl.description <;>
    cases pl.title <;> rfl

theorem updateFields_id (pl : TaskUpdatePayload) (t : TaskRec) :
    (updateFields pl t).id = t.id := by
  unfold updateFields
  cases pl.metadata <;> cases pl.tags <;> cases pl.due_date <;> cases pl.priority <;>
    cases pl.archived <;> cases pl.completed <;> cases pl.description <;>
    cases pl.title <;> rfl

theorem updateFields_parent_id (pl : TaskUpdatePayload) (t : TaskRec) :
    (updateFields pl t).parent_id = t.parent_id := by
  unfold updateFields
  cases pl.metadata <;> cases pl.tags <;> cases pl.due_date <;> cases pl.priority <;>
    cases pl.archived <;> cases pl.completed <;> cases pl.description <;>
    cases pl.title <;> rfl

theorem applyUpdate_ok (pl : TaskUpdatePayload) (s : Store) (tid : String)
    (t t9 : TaskRec) (h : applyUpdate pl s tid t = .ok t9) :
    t9.completion_date = t.completion_date ∧
      t9.completed = pl.completed.getD t.completed ∧ t9.id = t.id := by
  unfold applyUpdate at h
  cases hpa : pl.parent_id with
  | none =>
    rw [hpa] at h
    dsimp only at h
    cases h
    exact ⟨updateFields_completion_date pl t, updateFields_completed pl t,
      updateFields_id pl t⟩
  | some v =>
    rw [hpa] at h
    dsimp only at h
    by_cases hv : strTruthy v = true
    · rw [if_pos hv] at h
      cases hf : findById s (v.getD "") with
      | none => rw [hf] at h; cases h
      | some u =>
        rw [hf] at h
        by_cases hvt : v = some tid
        · rw [if_pos hvt] at h; cases h
        · rw [if_neg hvt] at h
          cases h
          exact ⟨updateFields_completion_date pl t, updateFields_completed pl t,
            updateFields_id pl t⟩
    · rw [if_neg hv] at h
      cases h
      exact ⟨updateFields_completion_date pl t, updateFields_completed pl t,
        updateFields_id pl t⟩

theorem iusCheck_none (t : TaskRec) : iusCheck t none = .ok true := rfl

theorem calculateEtag_ne_empty (t : TaskRec) : calculateEtag t ≠ "" := by
  intro h
  have : (calculateEtag t).data = ("" : String).data := congrArg String.data h
  simp [calculateEtag, String.data_append] at this

/-- **C5.**  When the found task is updated successfully with no precondition
headers: a payload carrying `completed = true` over a stored `false` sets
`completion_date` to the request instant; `completed = false` over a stored
`true` clears it; a payload without `completed` leaves it unchanged. -/
theorem c5_update_completion_date_edges (now tid : String)
    (pl : TaskUpdatePayload) (s s2 : Store) (t t2 : TaskRec)
    (ht : findById s tid = some t)
    (h : updateTask now tid pl none none s = (.ok t2, s2)) :
    (pl.completed = some true → t.completed = false → t2.completion_date = some now) ∧
      (pl.completed = some false → t.completed = true → t2.completion_date = none) ∧
      (pl.completed = none → t2.completion_date = t.completion_date) := by
  unfold updateTask at h
  rw [ht] at h
  dsimp only at h
  rw [iusCheck_none] at h
  dsimp only at h
  simp only [strTruthy, Bool.false_eq_true, false_and, if_false] at h
  cases happ : applyUpdate pl s tid t with
  | error e => rw [happ] at h; cases h
  | ok t9 =>
    rw [happ] at h
    dsimp only at h
    obtain ⟨hcd, hco, _⟩ := applyUpdate_ok pl s tid t t9 happ
    cases h
    refine ⟨?_, ?_, ?_⟩
    · intro hc hold
      rw [hc] at hco
      simp [finishUpdate, hc, hco, hold]
    · intro hc hold
      rw [hc] at hco
      simp [finishUpdate, hc, hco, hold]
    · intro hc
      simp [finishUpdate, hc, hcd]

/-- Witness for C5: marking a concrete open task completed stamps
`completion_date` with the request instant. -/
theorem c5_update_completion_date_edges_witness :
    ({ sampleRec "a" none none with
        completed := true
        completion_date := some "2024-06-02T00:00:00Z"
        updated_at := "2024-06-02T00:00:00Z" } : TaskRec).completion_date =
      some "2024-06-02T00:00:00Z" :=
  (c5_update_completion_date_edges "2024-06-02T00:00:00Z" "a"
    { noChange with completed := some true } [sampleRec "a" none none]
    [{ sampleRec "a" none none with
        completed := true
        completion_date := some "2024-06-02T00:00:00Z"
        updated_at := "2024-06-02T00:00:00Z" }]
    (sampleRec "a" none none)
    { sampleRec "a" none none with
        completed := true
        completion_date := some "2024-06-02T00:00:00Z"
        updated_at := "2024-06-02T00:00:00Z" }
    (by decide) (by rfl)).1 rfl rfl

theorem applyUpdate_isOk (pl : TaskUpdatePayload) (s : Store) (tid : String)
    (t : TaskRec)
    (hpa : ∀ v, pl.parent_id = some v → strTruthy v = true →
      (∃ u, findById s (v.getD "") = some u) ∧ v ≠ some tid) :
    ∃ t9, applyUpdate pl s tid t = .ok t9 := by
  unfold applyUpdate
  cases hp : pl.parent_id with
  | none => exact ⟨_, rfl⟩
  | some v =>
    dsimp only
    by_cases hv : strTruthy v = true
    · obtain ⟨⟨u, hu⟩, hne⟩ := hpa v hp hv
      rw [if_pos hv, hu, if_neg hne]
      exact ⟨_, rfl⟩
    · rw [if_neg hv]
      exact ⟨_, rfl⟩

/-- **C7 (amended).**  For a stored task: an update supplying `If-Match` equal
to the quoted stored `updated_at` passes the precondition and succeeds (when
the payload's `parent_id`, if truthily present, is valid); an update supplying
any other **non-empty** `If-Match` value fails with `PreconditionFailed` and
leaves the store — hence every field of the task — unchanged.  (An empty
header value is falsy in Python and bypasses the check; see the
counterexample.) -/
theorem c7_etag_precondition (now tid : String) (pl : TaskUpdatePayload)
    (s : Store) (t : TaskRec) (ht : findById s tid = some t)
    (hpa : ∀ v, pl.parent_id = some v → strTruthy v = true →
      (∃ u, findById s (v.getD "") = some u) ∧ v ≠ some tid) :
    (∃ t2 s2, updateTask now tid pl none (some (calculateEtag t)) s = (.ok t2, s2)) ∧
      (∀ e, e ≠ "" → e ≠ calculateEtag t →
        updateTask now tid pl none (some e) s = (.error .preconditionFailed, s)) := by
  constructor
  · unfold updateTask
    rw [ht]
    dsimp only
    rw [iusCheck_none]
    dsimp only
    rw [if_neg (fun hcon => hcon.2 rfl)]
    obtain ⟨t9, h9⟩ := applyUpdate_isOk pl s tid t hpa
    rw [h9]
    exact ⟨_, _, rfl⟩
  · intro e he hne
    unfold updateTask
    rw [ht]
    dsimp only
    rw [iusCheck_none]
    dsimp only
    rw [if_pos ⟨by simp [strTruthy, he], fun hh => hne (Option.some.inj hh)⟩]

/-- Counterexample to C7 as stated: an empty `If-Match` header value differs
from the stored ETag, yet the update succeeds instead of failing with
`PreconditionFailed` (`if if_match:` is false for `""`). -/
theorem c7_empty_if_match_bypasses :
    "" ≠ calculateEtag (sampleRec "a" none none) ∧
      (updateTask "2024-06-02T00:00:00Z" "a" noChange none (some "")
          [sampleRec "a" none none]).1 =
        .ok { sampleRec "a" none none with updated_at := "2024-06-02T00:00:00Z" } := by
  exact ⟨by decide, by rfl⟩

/-- Witness for C7 at a concrete task: a wrong non-empty ETag is rejected with
the store unchanged. -/
theorem c7_etag_precondition_witness :
    updateTask "2024-06-02T00:00:00Z" "a" noChange none (some "\"stale\"")
        [sampleRec "a" none none] =
      (.error .preconditionFailed, [sampleRec "a" none none]) :=
  (c7_etag_precondition "2024-06-02T00:00:00Z" "a" noChange
    [sampleRec "a" none none] (sampleRec "a" none none) (by decide)
    (by intro v hv; simp [noChange] at hv)).2 "\"stale\"" (by decide) (by decide)

/-! ## Listing lemmas (C9, C2) -/

theorem insertLe_perm {α : Type} (le : α → α → Bool) (x : α) (l : List α) :
    (insertLe le x l).Perm (x :: l) := by
  induction l with
  | nil => exact List.Perm.refl _
  | cons y l ih =>
    unfold insertLe
    by_cases h : le x y
    · rw [if_pos h]
    · rw [if_neg h]
      exact (ih.cons y).trans (List.Perm.swap x y l)

theorem isortLe_perm {α : Type} (le : α → α → Bool) (l : List α) :
    (isortLe le l).Perm l := by
  induction l with
  | nil => exact List.Perm.refl _
  | cons x l ih => exact (insertLe_perm le x (isortLe le l)).trans (ih.cons x)

theorem mem_isortLe {α : Type} (le : α → α → Bool) (l : List α) (x : α) :
    x ∈ isortLe le l ↔ x ∈ l :=
  (isortLe_perm le l).mem_iff

theorem length_isortLe {α : Type} (le : α → α → Bool) (l : List α) :
    (isortLe le l).length = l.length :=
  (isortLe_perm le l).length_eq

/-- Membership in the returned page coincides with membership in the filtered
set whenever pagination does not truncate (offset 0, total within the limit). -/
theorem mem_listTasks_page (p : ListParams) (s : Store)
    (hoff : p.offset = 0) (hlim : (listTasks p s).2 ≤ p.limit) (t : TaskRec) :
    t ∈ (listTasks p s).1 ↔ t ∈ s ∧ matchesFilters p t = true := by
  have htot : (listTasks p s).2 = (listFiltered p s).length := rfl
  unfold listTasks
  dsimp only
  rw [hoff, List.drop_zero,
    List.take_of_length_le (by rw [length_isortLe]; exact htot ▸ hlim),
    mem_isortLe]
  unfold listFiltered
  rw [List.mem_filter]

/-- **C9 (claim as stated).**  With no `parent_id` filter supplied (and
pagination not truncating), a task is in the result iff it is stored, has a
null `parent_id`, and satisfies the other supplied filters — tasks with a
non-null parent never appear. -/
theorem c9_default_listing_roots_only (p : ListParams) (s : Store)
    (hpar : p.parent_id = none) (hoff : p.offset = 0)
    (hlim : (listTasks p s).2 ≤ p.limit) (t : TaskRec) :
    t ∈ (listTasks p s).1 ↔
      t ∈ s ∧ t.parent_id = none ∧
        (fCompleted p t && fArchived p t && fPriority p t && fTags p t &&
          fSearch p t && fDueBefore p t && fDueAfter p t && fOverdue p t) = true := by
  rw [mem_listTasks_page p s hoff hlim]
  unfold matchesFilters fParent
  rw [hpar]
  simp only [Bool.and_eq_true, decide_eq_true_eq]
  tauto

/-- Witness for C9: in a store with one root and one child task, the root is
in the default listing. -/
theorem c9_default_listing_roots_only_witness :
    sampleRec "a" none none ∈
      (listTasks defaultParams [sampleRec "a" none none, sampleRec "b" (some "a") none]).1 :=
  (c9_default_listing_roots_only defaultParams
    [sampleRec "a" none none, sampleRec "b" (some "a") none]
    rfl rfl (by decide) (sampleRec "a" none none)).mpr (by decide)

/-! ## Lookup-by-id lemmas -/

theorem find_id_eq_some {α : Type} (idf : α → String) (l : List α)
    (hnod : (l.map idf).Nodup) (y : α) (p : String) (hy : y ∈ l) (hp : idf y = p) :
    l.find? (fun x => idf x = p) = some y := by
  induction l with
  | nil => cases hy
  | cons a l ih =>
    rw [List.map_cons, List.nodup_cons] at hnod
    rcases List.mem_cons.mp hy with rfl | hyl
    · exact List.find?_cons_of_pos l (by simpa using hp)
    · have hne : ¬ (idf a = p) := by
        intro hap
        apply hnod.1
        rw [hap, ← hp]
        exact List.mem_map_of_mem idf hyl
      rw [List.find?_cons_of_neg l (by simpa using hne)]
      exact ih hnod.2 hyl

theorem find_id_spec {α : Type} (idf : α → String) (l : List α) (p : String)
    (y : α) (h : l.find? (fun x => idf x = p) = some y) : y ∈ l ∧ idf y = p :=
  ⟨List.mem_of_find?_eq_some h, by simpa using List.find?_some h⟩

theorem id_inj {α : Type} (idf : α → String) (l : List α)
    (hnod : (l.map idf).Nodup) (x y : α) (hx : x ∈ l) (hy : y ∈ l)
    (h : idf x = idf y) : x = y :=
  List.inj_on_of_nodup_map hnod hx hy h

theorem mem_of_id_mem {α : Type} (idf : α → String) (big l : List α)
    (hnod : (big.map idf).Nodup) (hsub : ∀ x ∈ l, x ∈ big) (y : α)
    (hy : y ∈ big) (hid : idf y ∈ l.map idf) : y ∈ l := by
  obtain ⟨z, hz, hzid⟩ := List.mem_map.mp hid
  exact id_inj idf big hnod z y (hsub z hz) hy hzid ▸ hz

theorem batchFind_eq_some (batch : List TaskIO) (hnd : (batchIds batch).Nodup)
    (y : TaskIO) (p : String) (hy : y ∈ batch) (hp : y.id = p) :
    batchFind batch p = some y := by
  unfold batchFind
  exact find_id_eq_some (fun t => t.id) batch (by simpa [batchIds] using hnd) y p hy hp

theorem batchFind_spec (batch : List TaskIO) (p : String) (y : TaskIO)
    (h : batchFind batch p = some y) : y ∈ batch ∧ y.id = p :=
  find_id_spec (fun t => t.id) batch p y (by simpa [batchFind] using h)

/-! ## Inversion and invariants of `add_task_with_parents` -/

theorem idsOfIO_append (l1 l2 : List TaskIO) :
    batchIds (l1 ++ l2) = batchIds l1 ++ batchIds l2 :=
  List.map_append _ l1 l2

/-- Inversion of one successful step of `add_task_with_parents`: either the
record was already processed, or its in-batch parent was recursed on first, or
it was appended directly (falsy parent or parent outside the batch). -/
theorem addTask_cases (f : Nat) (batch : List TaskIO) (x : TaskIO)
    (acc out : List TaskIO)
    (h : addTaskWithParents (f + 1) batch x acc = some out) :
    (x.id ∈ batchIds acc ∧ out = acc) ∨
      (x.id ∉ batchIds acc ∧ strTruthy x.parent_id = true ∧
        ∃ pt mid, batchFind batch (x.parent_id.getD "") = some pt ∧
          addTaskWithParents f batch pt acc = some mid ∧ out = mid ++ [x]) ∨
      (x.id ∉ batchIds acc ∧ out = acc ++ [x] ∧
        (strTruthy x.parent_id = false ∨
          batchFind batch (x.parent_id.getD "") = none)) := by
  rw [addTaskWithParents] at h
  by_cases hin : x.id ∈ batchIds acc
  · left
    rw [if_pos (by simpa [batchIds] using hin)] at h
    exact ⟨hin, (Option.some.inj h).symm⟩
  · rw [if_neg (by simpa [batchIds] using hin)] at h
    by_cases hp : strTruthy x.parent_id = true
    · rw [if_pos hp] at h
      cases hf : batchFind batch (x.parent_id.getD "") with
      | some pt =>
        rw [hf] at h
        dsimp only at h
        cases hmid : addTaskWithParents f batch pt acc with
        | none => rw [hmid] at h; cases h
        | some mid =>
          rw [hmid] at h
          exact .inr (.inl ⟨hin, hp, pt, mid, rfl, hmid, (Option.some.inj h).symm⟩)
      | none =>
        rw [hf] at h
        dsimp only at h
        exact .inr (.inr ⟨hin, (Option.some.inj h).symm, .inr rfl⟩)
    · rw [if_neg hp] at h
      exact .inr (.inr ⟨hin, (Option.some.inj h).symm,
        .inl (Bool.not_eq_true _ ▸ hp)⟩)

theorem addTask_zero (batch : List TaskIO) (x : TaskIO) (acc out : List TaskIO)
    (h : addTaskWithParents 0 batch x acc = some out) : False := by
  rw [addTaskWithParents] at h
  cases h

theorem addTask_prefix (batch : List TaskIO) :
    ∀ (f : Nat) (x : TaskIO) (acc out : List TaskIO),
      addTaskWithParents f batch x acc = some out → ∃ app, out = acc ++ app := by
  intro f
  induction f with
  | zero =>
    intro x acc out h
    exact (addTask_zero batch x acc out h).elim
  | succ f ih =>
    intro x acc out h
    rcases addTask_cases f batch x acc out h with
      ⟨_, rfl⟩ | ⟨_, _, pt, mid, _, hmid, rfl⟩ | ⟨_, rfl, _⟩
    · exact ⟨[], (List.append_nil _).symm⟩
    · obtain ⟨app1, rfl⟩ := ih pt acc mid hmid
      exact ⟨app1 ++ [x], by rw [List.append_assoc]⟩
    · exact ⟨[x], rfl⟩

theorem addTask_subset (batch : List TaskIO) :
    ∀ (f : Nat) (x : TaskIO) (acc out : List TaskIO),
      x ∈ batch → (∀ y ∈ acc, y ∈ batch) →
      addTaskWithParents f batch x acc = some out → ∀ y ∈ out, y ∈ batch := by
  intro f
  induction f with
  | zero =>
    intro x acc out _ _ h
    exact (addTask_zero batch x acc out h).elim
  | succ f ih =>
    intro x acc out hx hsub h
    rcases addTask_cases f batch x acc out h with
      ⟨_, rfl⟩ | ⟨_, _, pt, mid, hf, hmid, rfl⟩ | ⟨_, rfl, _⟩
    · exact hsub
    · intro y hy
      rcases List.mem_append.mp hy with hy1 | hy2
      · exact ih pt acc mid (batchFind_spec batch _ pt hf).1 hsub hmid y hy1
      · rw [List.mem_singleton.mp hy2]; exact hx
    · intro y hy
      rcases List.mem_append.mp hy with hy1 | hy2
      · exact hsub y hy1
      · rw [List.mem_singleton.mp hy2]; exact hx

theorem addTask_id_mem (batch : List TaskIO) (f : Nat) (x : TaskIO)
    (acc out : List TaskIO) (h : addTaskWithParents f batch x acc = some out) :
    x.id ∈ batchIds out := by
  cases f with
  | zero => exact (addTask_zero batch x acc out h).elim
  | succ f =>
    rcases addTask_cases f batch x acc out h with
      ⟨hin, rfl⟩ | ⟨_, _, pt, mid, _, _, rfl⟩ | ⟨_, rfl, _⟩
    · exact hin
    · rw [idsOfIO_append]
      exact List.mem_append_right _ (by simp [batchIds])
    · rw [idsOfIO_append]
      exact List.mem_append_right _ (by simp [batchIds])

theorem addTask_reach (batch : List TaskIO) :
    ∀ (f : Nat) (x : TaskIO) (acc out : List TaskIO),
      addTaskWithParents f batch x acc = some out →
      ∀ y ∈ out, y ∉ acc → y = x ∨ ReachS batch x y := by
  intro f
  induction f with
  | zero =>
    intro x acc out h
    exact (addTask_zero batch x acc out h).elim
  | succ f ih =>
    intro x acc out h y hy hynacc
    rcases addTask_cases f batch x acc out h with
      ⟨_, rfl⟩ | ⟨_, hp, pt, mid, hf, hmid, rfl⟩ | ⟨_, rfl, _⟩
    · exact absurd hy hynacc
    · rcases List.mem_append.mp hy with hy1 | hy2
      · rcases ih pt acc mid hmid y hy1 hynacc with rfl | hr
        · exact .inr (.single hp hf)
        · exact .inr (.tail hp hf hr)
      · exact .inl (List.mem_singleton.mp hy2)
    · rcases List.mem_append.mp hy with hy1 | hy2
      · exact absurd hy1 hynacc
      · exact .inl (List.mem_singleton.mp hy2)

theorem reachS_snoc (batch : List TaskIO) (a b c : TaskIO)
    (h : ReachS batch a b) (hp : strTruthy b.parent_id = true)
    (hf : batchFind batch (b.parent_id.getD "") = some c) : ReachS batch a c := by
  induction h with
  | single hp1 hf1 => exact .tail hp1 hf1 (.single hp hf)
  | tail hp1 hf1 _ ih => exact .tail hp1 hf1 (ih hp hf)

theorem pclosed_reach (batch : List TaskIO) (acc : List TaskIO)
    (hpc : PClosed batch acc) (y z : TaskIO) (hy : y ∈ acc)
    (hr : ReachS batch y z) : z ∈ acc := by
  induction hr with
  | single hp hf => exact hpc _ hy hp _ hf
  | tail hp hf _ ih => exact ih (hpc _ hy hp _ hf)

theorem addTask_pclosed (batch : List TaskIO) (hnd : (batchIds batch).Nodup) :
    ∀ (f : Nat) (x : TaskIO) (acc out : List TaskIO),
      x ∈ batch → (∀ y ∈ acc, y ∈ batch) → PClosed batch acc →
      addTaskWithParents f batch x acc = some out → PClosed batch out := by
  intro f
  induction f with
  | zero =>
    intro x acc out _ _ _ h
    exact (addTask_zero batch x acc out h).elim
  | succ f ih =>
    intro x acc out hx hsub hpc h
    rcases addTask_cases f batch x acc out h with
      ⟨_, rfl⟩ | ⟨_, hp, pt, mid, hf, hmid, rfl⟩ | ⟨_, rfl, hdisj⟩
    · exact hpc
    · have hptb : pt ∈ batch := (batchFind_spec batch _ pt hf).1
      have hmidpc : PClosed batch mid := ih pt acc mid hptb hsub hpc hmid
      have hmidsub : ∀ y ∈ mid, y ∈ batch :=
        addTask_subset batch f pt acc mid hptb hsub hmid
      intro y hy hyp p hyf
      rcases List.mem_append.mp hy with hy1 | hy2
      · exact List.mem_append_left _ (hmidpc y hy1 hyp p hyf)
      · have hyx : y = x := List.mem_singleton.mp hy2
        rw [hyx, hf] at hyf
        have hppt : p = pt := (Option.some.inj hyf).symm
        have hpmid : p ∈ mid := by
          refine mem_of_id_mem (fun t => t.id) batch mid
            (by simpa [batchIds] using hnd) hmidsub p (hppt ▸ hptb) ?_
          have := addTask_id_mem batch f pt acc mid hmid
          simpa [batchIds, hppt] using this
        exact List.mem_append_left _ hpmid
    · intro y hy hyp p hyf
      rcases List.mem_append.mp hy with hy1 | hy2
      · exact List.mem_append_left _ (hpc y hy1 hyp p hyf)
      · rw [List.mem_singleton.mp hy2] at hyp hyf
        rcases hdisj with hfalse | hnone
        · rw [hyp] at hfalse; cases hfalse
        · rw [hnone] at hyf; cases hyf

/-- A record lying on an in-batch parent cycle can only "succeed" through the
processed-set guard: its id must already be among the accumulated ids.  (This
is the heart of the non-termination of `add_task_with_parents` on cycles.) -/
theorem addTask_cycle (batch : List TaskIO) (hnd : (batchIds batch).Nodup) :
    ∀ (f : Nat) (x : TaskIO) (acc out : List TaskIO),
      x ∈ batch → (∀ y ∈ acc, y ∈ batch) → PClosed batch acc →
      OnCycle batch x →
      addTaskWithParents f batch x acc = some out → x.id ∈ batchIds acc := by
  intro f
  induction f with
  | zero =>
    intro x acc out _ _ _ _ h
    exact (addTask_zero batch x acc out h).elim
  | succ f ih =>
    intro x acc out hx hsub hpc hcyc h
    rcases addTask_cases f batch x acc out h with
      ⟨hin, _⟩ | ⟨hnin, hp, pt, mid, hf, hmid, _⟩ | ⟨hnin, _, hdisj⟩
    · exact hin
    · have hptb : pt ∈ batch := (batchFind_spec batch _ pt hf).1
      have hcyc2 : OnCycle batch pt ∧ (pt = x ∨ ReachS batch pt x) := by
        cases hcyc with
        | single hp1 hf1 =>
          have hptx : pt = x := Option.some.inj (hf.symm.trans hf1)
          refine ⟨?_, .inl hptx⟩
          rw [hptx]
          exact .single hp1 hf1
        | tail hp1 hf1 hr =>
          have hpty := Option.some.inj (hf1.symm.trans hf)
          rw [hpty] at hr
          exact ⟨reachS_snoc batch pt x pt hr hp hf, .inr hr⟩
      have hptacc : pt.id ∈ batchIds acc :=
        ih pt acc mid hptb hsub hpc hcyc2.1 hmid
      have hptmem : pt ∈ acc :=
        mem_of_id_mem (fun t => t.id) batch acc (by simpa [batchIds] using hnd)
          hsub pt hptb (by simpa [batchIds] using hptacc)
      rcases hcyc2.2 with rfl | hr
      · exact hptacc
      · have hxacc : x ∈ acc := pclosed_reach batch acc hpc pt x hptmem hr
        exact List.mem_map_of_mem _ hxacc
    · cases hcyc with
      | single hp1 hf1 =>
        rcases hdisj with hfalse | hnone
        · rw [hp1] at hfalse; cases hfalse
        · rw [hnone] at hf1; cases hf1
      | tail hp1 hf1 _ =>
        rcases hdisj with hfalse | hnone
        · rw [hp1] at hfalse; cases hfalse
        · rw [hnone] at hf1; cases hf1

theorem addTask_nodup (batch : List TaskIO) (hnd : (batchIds batch).Nodup) :
    ∀ (f : Nat) (x : TaskIO) (acc out : List TaskIO),
      x ∈ batch → (∀ y ∈ acc, y ∈ batch) → PClosed batch acc →
      (batchIds acc).Nodup →
      addTaskWithParents f batch x acc = some out → (batchIds out).Nodup := by
  intro f
  induction f with
  | zero =>
    intro x acc out _ _ _ _ h
    exact (addTask_zero batch x acc out h).elim
  | succ f ih =>
    intro x acc out hx hsub hpc hnda h
    rcases addTask_cases f batch x acc out h with
      ⟨_, rfl⟩ | ⟨hnin, hp, pt, mid, hf, hmid, rfl⟩ | ⟨hnin, rfl, _⟩
    · exact hnda
    · have hptb : pt ∈ batch := (batchFind_spec batch _ pt hf).1
      have hmidnd : (batchIds mid).Nodup := ih pt acc mid hptb hsub hpc hnda hmid
      have hxmid : x.id ∉ batchIds mid := by
        intro hxin
        obtain ⟨y, hy, hyid⟩ := List.mem_map.mp hxin
        have hynacc : y ∉ acc := by
          intro hyacc
          exact hnin (hyid ▸ List.mem_map_of_mem _ hyacc)
        have hyb : y ∈ batch := addTask_subset batch f pt acc mid hptb hsub hmid y hy
        have hyx : y = x := id_inj (fun t => t.id) batch
          (by simpa [batchIds] using hnd) y x hyb hx hyid
        have hcyc : OnCycle batch x := by
          rcases addTask_reach batch f pt acc mid hmid y hy hynacc with heq | hr
          · exact .single hp (by rw [hf, ← hyx, heq])
          · exact .tail hp hf (hyx ▸ hr)
        exact hnin (addTask_cycle batch hnd (f + 1) x acc (mid ++ [x]) hx hsub hpc hcyc h)
      rw [idsOfIO_append]
      refine ((List.perm_append_singleton _ _).nodup_iff).mpr ?_
      exact List.nodup_cons.mpr ⟨by simpa [batchIds] using hxmid, hmidnd⟩
    · rw [idsOfIO_append]
      refine ((List.perm_append_singleton _ _).nodup_iff).mpr ?_
      exact List.nodup_cons.mpr ⟨by simpa [batchIds] using hnin, hnda⟩

theorem addTask_nocycle (batch : List TaskIO) (hnd : (batchIds batch).Nodup) :
    ∀ (f : Nat) (x : TaskIO) (acc out : List TaskIO),
      x ∈ batch → (∀ y ∈ acc, y ∈ batch) → PClosed batch acc →
      (∀ y ∈ acc, ¬ OnCycle batch y) →
      addTaskWithParents f batch x acc = some out →
      ∀ y ∈ out, ¬ OnCycle batch y := by
  intro f
  induction f with
  | zero =>
    intro x acc out _ _ _ _ h
    exact (addTask_zero batch x acc out h).elim
  | succ f ih =>
    intro x acc out hx hsub hpc hnc h
    rcases addTask_cases f batch x acc out h with
      ⟨_, rfl⟩ | ⟨hnin, hp, pt, mid, hf, hmid, rfl⟩ | ⟨hnin, rfl, hdisj⟩
    · exact hnc
    · have hptb : pt ∈ batch := (batchFind_spec batch _ pt hf).1
      have hmidnc := ih pt acc mid hptb hsub hpc hnc hmid
      intro y hy hycyc
      rcases List.mem_append.mp hy with hy1 | hy2
      · exact hmidnc y hy1 hycyc
      · rw [List.mem_singleton.mp hy2] at hycyc
        exact hnin (addTask_cycle batch hnd (f + 1) x acc (mid ++ [x]) hx hsub hpc hycyc h)
    · intro y hy hycyc
      rcases List.mem_append.mp hy with hy1 | hy2
      · exact hnc y hy1 hycyc
      · rw [List.mem_singleton.mp hy2] at hycyc
        cases hycyc with
        | single hp1 hf1 =>
          rcases hdisj with hfalse | hnone
          · rw [hp1] at hfalse; cases hfalse
          · rw [hnone] at hf1; cases hf1
        | tail hp1 hf1 _ =>
          rcases hdisj with hfalse | hnone
          · rw [hp1] at hfalse; cases hfalse
          · rw [hnone] at hf1; cases hf1

/-- Splitting a decomposition of `a ++ [x]` around a distinguished element. -/
theorem append_singleton_eq {α : Type} :
    ∀ (l1 : List α) (y : α) (l2 a : List α) (x : α),
      l1 ++ y :: l2 = a ++ [x] →
      (∃ l2b, a = l1 ++ y :: l2b ∧ l2 = l2b ++ [x]) ∨ (l1 = a ∧ y = x ∧ l2 = []) := by
  intro l1
  induction l1 with
  | nil =>
    intro y l2 a x h
    cases a with
    | nil =>
      simp only [List.nil_append] at h
      exact .inr ⟨rfl, List.cons.inj h |>.1, List.cons.inj h |>.2⟩
    | cons b a2 =>
      simp only [List.nil_append, List.cons_append] at h
      obtain ⟨rfl, h2⟩ := List.cons.inj h
      exact .inl ⟨a2, by simp, h2⟩
  | cons c l1t ih =>
    intro y l2 a x h
    cases a with
    | nil =>
      simp only [List.cons_append, List.nil_append] at h
      obtain ⟨rfl, h2⟩ := List.cons.inj h
      cases l1t <;> cases h2
    | cons b a2 =>
      simp only [List.cons_append] at h
      obtain ⟨rfl, h2⟩ := List.cons.inj h
      rcases ih y l2 a2 x h2 with ⟨l2b, rfl, rfl⟩ | ⟨rfl, rfl, rfl⟩
      · exact .inl ⟨l2b, by simp, rfl⟩
      · exact .inr ⟨rfl, rfl, rfl⟩

theorem addTask_ordered (batch : List TaskIO) (hnd : (batchIds batch).Nodup) :
    ∀ (f : Nat) (x : TaskIO) (acc out : List TaskIO),
      x ∈ batch → (∀ y ∈ acc, y ∈ batch) → OrderedParents batch acc →
      addTaskWithParents f batch x acc = some out → OrderedParents batch out := by
  intro f
  induction f with
  | zero =>
    intro x acc out _ _ _ h
    exact (addTask_zero batch x acc out h).elim
  | succ f ih =>
    intro x acc out hx hsub hord h
    rcases addTask_cases f batch x acc out h with
      ⟨_, rfl⟩ | ⟨hnin, hp, pt, mid, hf, hmid, rfl⟩ | ⟨hnin, rfl, hdisj⟩
    · exact hord
    · have hptb : pt ∈ batch := (batchFind_spec batch _ pt hf).1
      have hmidord := ih pt acc mid hptb hsub hord hmid
      have hmidsub : ∀ y ∈ mid, y ∈ batch :=
        addTask_subset batch f pt acc mid hptb hsub hmid
      intro l1 y l2 hdec hyp p hyf
      rcases append_singleton_eq l1 y l2 mid x hdec.symm with
        ⟨l2b, hmid2, _⟩ | ⟨heq1, heq2, _⟩
      · exact hmidord l1 y l2b hmid2 hyp p hyf
      · rw [heq2] at hyf
        rw [hf] at hyf
        have hppt : p = pt := (Option.some.inj hyf).symm
        rw [heq1]
        refine mem_of_id_mem (fun t => t.id) batch mid
          (by simpa [batchIds] using hnd) hmidsub p (hppt ▸ hptb) ?_
        have := addTask_id_mem batch f pt acc mid hmid
        simpa [batchIds, hppt] using this
    · intro l1 y l2 hdec hyp p hyf
      rcases append_singleton_eq l1 y l2 acc x hdec.symm with
        ⟨l2b, hacc2, _⟩ | ⟨heq1, heq2, _⟩
      · exact hord l1 y l2b hacc2 hyp p hyf
      · rw [heq2] at hyp hyf
        rcases hdisj with hfalse | hnone
        · rw [hyp] at hfalse; cases hfalse
        · rw [hnone] at hyf; cases hyf

/-! ## The reordering fold -/

theorem sortFold_none (batch : List TaskIO) (fuel : Nat) (ts : List TaskIO) :
    ts.foldl (fun a t => match a with
      | none => none
      | some sorted => addTaskWithParents fuel batch t sorted) none = none := by
  induction ts with
  | nil => rfl
  | cons t ts ih => exact ih

theorem sortFold_invariants (batch : List TaskIO) (fuel : Nat)
    (hnd : (batchIds batch).Nodup) :
    ∀ (ts : List TaskIO) (acc out : List TaskIO),
      (∀ x ∈ ts, x ∈ batch) → (∀ y ∈ acc, y ∈ batch) → PClosed batch acc →
      (batchIds acc).Nodup → OrderedParents batch acc →
      (∀ y ∈ acc, ¬ OnCycle batch y) →
      ts.foldl (fun a t => match a with
        | none => none
        | some sorted => addTaskWithParents fuel batch t sorted) (some acc) = some out →
      (∀ y ∈ out, y ∈ batch) ∧ PClosed batch out ∧ (batchIds out).Nodup ∧
        OrderedParents batch out ∧ (∀ y ∈ out, ¬ OnCycle batch y) ∧
        (∀ x ∈ ts, x.id ∈ batchIds out) ∧ (∃ app, out = acc ++ app) := by
  intro ts
  induction ts with
  | nil =>
    intro acc out _ hsub hpc hnda hord hnc h
    cases h
    refine ⟨hsub, hpc, hnda, hord, hnc, ?_, ⟨[], (List.append_nil _).symm⟩⟩
    intro x hx
    cases hx
  | cons t ts ih =>
    intro acc out hts hsub hpc hnda hord hnc h
    rw [List.foldl_cons] at h
    dsimp only at h
    cases hstep : addTaskWithParents fuel batch t acc with
    | none =>
      rw [hstep] at h
      rw [sortFold_none] at h
      cases h
    | some acc1 =>
      rw [hstep] at h
      have htb : t ∈ batch := hts t (List.mem_cons_self t ts)
      have hsub1 := addTask_subset batch fuel t acc acc1 htb hsub hstep
      have hpc1 := addTask_pclosed batch hnd fuel t acc acc1 htb hsub hpc hstep
      have hnda1 := addTask_nodup batch hnd fuel t acc acc1 htb hsub hpc hnda hstep
      have hord1 := addTask_ordered batch hnd fuel t acc acc1 htb hsub hord hstep
      have hnc1 := addTask_nocycle batch hnd fuel t acc acc1 htb hsub hpc hnc hstep
      obtain ⟨hs, hp2, hn2, ho2, hc2, hids, app1, happ1⟩ :=
        ih acc1 out (fun x hx => hts x (List.mem_cons_of_mem t hx))
          hsub1 hpc1 hnda1 hord1 hnc1 h
      refine ⟨hs, hp2, hn2, ho2, hc2, ?_, ?_⟩
      · intro x hx
        rcases List.mem_cons.mp hx with rfl | hx2
        · have := addTask_id_mem batch fuel x acc acc1 hstep
          rw [happ1, idsOfIO_append]
          exact List.mem_append_left _ this
        · exact hids x hx2
      · obtain ⟨app0, happ0⟩ := addTask_prefix batch fuel t acc acc1 hstep
        exact ⟨app0 ++ app1, by rw [happ1, happ0, List.append_assoc]⟩

theorem sortBatch_invariants (batch : List TaskIO) (fuel : Nat)
    (out : List TaskIO) (hnd : (batchIds batch).Nodup)
    (h : sortBatch fuel batch = some out) :
    (∀ y ∈ out, y ∈ batch) ∧ PClosed batch out ∧ (batchIds out).Nodup ∧
      OrderedParents batch out ∧ (∀ y ∈ out, ¬ OnCycle batch y) ∧
      (∀ x ∈ batch, x.id ∈ batchIds out) := by
  have := sortFold_invariants batch fuel hnd batch [] out
    (fun x hx => hx) (by intro y hy; cases hy) (by intro y hy; cases hy)
    List.nodup_nil (by intro l1 y l2 hdec; cases l1 <;> cases hdec)
    (by intro y hy; cases hy) h
  exact ⟨this.1, this.2.1, this.2.2.1, this.2.2.2.1, this.2.2.2.2.1,
    this.2.2.2.2.2.1⟩

theorem nodupIds_nodup (l : List TaskIO) (h : (batchIds l).Nodup) : l.Nodup :=
  List.Nodup.of_map _ (by simpa [batchIds] using h)

/-- Any successful run of the reordering yields a permutation of the batch
(each record exactly once). -/
theorem sortBatch_perm (batch : List TaskIO) (fuel : Nat) (out : List TaskIO)
    (hnd : (batchIds batch).Nodup) (h : sortBatch fuel batch = some out) :
    out.Perm batch := by
  obtain ⟨hsub, _, hnd2, _, _, hids⟩ := sortBatch_invariants batch fuel out hnd h
  refine (List.perm_ext_iff_of_nodup (nodupIds_nodup out hnd2)
    (nodupIds_nodup batch hnd)).mpr ?_
  intro a
  constructor
  · exact fun ha => hsub a ha
  · intro ha
    exact mem_of_id_mem (fun t => t.id) batch out (by simpa [batchIds] using hnd)
      hsub a ha (by simpa [batchIds] using hids a ha)

/-! ## Termination of the reordering on acyclic batches -/

theorem depthIO_addTask (batch : List TaskIO) :
    ∀ (f : Nat) (x : TaskIO) (acc : List TaskIO),
      batchDepth f batch x = true →
      ∃ out, addTaskWithParents f batch x acc = some out := by
  intro f
  induction f with
  | zero =>
    intro x acc hd
    rw [batchDepth] at hd
    cases hd
  | succ f ih =>
    intro x acc hd
    rw [batchDepth] at hd
    by_cases hin : (acc.map (fun y => y.id)).contains x.id
    · exact ⟨acc, by rw [addTaskWithParents, if_pos hin]⟩
    · by_cases hp : strTruthy x.parent_id = true
      · rw [if_pos hp] at hd
        cases hf : batchFind batch (x.parent_id.getD "") with
        | none =>
          refine ⟨acc ++ [x], ?_⟩
          rw [addTaskWithParents, if_neg hin, if_pos hp, hf]
        | some pt =>
          rw [hf] at hd
          obtain ⟨mid, hmid⟩ := ih pt acc hd
          refine ⟨mid ++ [x], ?_⟩
          rw [addTaskWithParents, if_neg hin, if_pos hp, hf]
          dsimp only
          rw [hmid]
      · refine ⟨acc ++ [x], ?_⟩
        rw [addTaskWithParents, if_neg hin, if_neg hp]

theorem sortFold_some (batch : List TaskIO) (fuel : Nat) :
    ∀ (ts : List TaskIO) (acc : List TaskIO),
      (∀ x ∈ ts, batchDepth fuel batch x = true) →
      ∃ out, ts.foldl (fun a t => match a with
        | none => none
        | some sorted => addTaskWithParents fuel batch t sorted) (some acc) = some out := by
  intro ts
  induction ts with
  | nil => exact fun acc _ => ⟨acc, rfl⟩
  | cons t ts ih =>
    intro acc hall
    obtain ⟨acc1, h1⟩ :=
      depthIO_addTask batch fuel t acc (hall t (List.mem_cons_self t ts))
    obtain ⟨out, hout⟩ := ih acc1 (fun x hx => hall x (List.mem_cons_of_mem t hx))
    refine ⟨out, ?_⟩
    rw [List.foldl_cons]
    dsimp only
    rw [h1]
    exact hout

theorem sortBatch_some (batch : List TaskIO) (fuel : Nat)
    (hall : ∀ x ∈ batch, batchDepth fuel batch x = true) :
    ∃ out, sortBatch fuel batch = some out :=
  sortFold_some batch fuel batch [] hall

/-- A record whose truthy `parent_id` resolves to itself makes
`add_task_with_parents` recurse forever: no fuel suffices. -/
theorem selfRef_addTask_none :
    ∀ fuel, addTaskWithParents fuel [sampleIn "c" (some "c")]
      (sampleIn "c" (some "c")) [] = none := by
  intro fuel
  induction fuel with
  | zero => rfl
  | succ f ih =>
    rw [addTaskWithParents]
    rw [if_neg (by decide), if_pos (by decide)]
    have hf : batchFind [sampleIn "c" (some "c")]
        (((sampleIn "c" (some "c")).parent_id).getD "") =
        some (sampleIn "c" (some "c")) := by rfl
    rw [hf]
    dsimp only
    rw [ih]

/-- **C10.**  On a batch with distinct ids whose in-batch parent references are
acyclic, the reordering terminates within the recursion depth available to the
source and returns a permutation of the batch (each record exactly once); and
acyclicity is necessary — on a one-record self-parent batch the recursion
finds no fixpoint at any depth (the source raises `RecursionError`). -/
theorem c10_reorder_terminates_perm (batch : List TaskIO)
    (hnd : (batchIds batch).Nodup) (hacy : batchAcyclic batch = true) :
    (∃ out, sortBatch (batch.length + 1) batch = some out ∧ out.Perm batch) ∧
      (∀ fuel, sortBatch fuel [sampleIn "c" (some "c")] = none) := by
  constructor
  · have hall : ∀ x ∈ batch, batchDepth (batch.length + 1) batch x = true := by
      intro x hx
      exact List.all_eq_true.mp hacy x hx
    obtain ⟨out, hout⟩ := sortBatch_some batch (batch.length + 1) hall
    exact ⟨out, hout, sortBatch_perm batch (batch.length + 1) out hnd hout⟩
  · intro fuel
    unfold sortBatch
    rw [List.foldl_cons]
    dsimp only
    rw [selfRef_addTask_none fuel]
    rfl

/-- Witness for C10 at a concrete acyclic two-record batch. -/
theorem c10_reorder_terminates_perm_witness :
    ∃ out, sortBatch ([sampleIn "b" (some "a"), sampleIn "a" none].length + 1)
        [sampleIn "b" (some "a"), sampleIn "a" none] = some out ∧
      out.Perm [sampleIn "b" (some "a"), sampleIn "a" none] :=
  (c10_reorder_terminates_perm [sampleIn "b" (some "a"), sampleIn "a" none]
    (by decide) (by decide)).1

/-- **C4 (amended).**  Whenever the reordering completes, a record `B` whose
`parent_id` is the (non-empty) id of a record `A` in the batch is placed after
`A`, regardless of the submitted order.  (For `A` with the empty id the
reference is falsy and no reordering happens; see the counterexample.) -/
theorem c4_import_parent_before_child (batch : List TaskIO) (fuel : Nat)
    (out l1 l2 : List TaskIO) (a b : TaskIO)
    (hnd : (batchIds batch).Nodup)
    (hs : sortBatch fuel batch = some out)
    (hdec : out = l1 ++ b :: l2)
    (ha : a ∈ batch) (hpb : b.parent_id = some a.id) (hane : a.id ≠ "") :
    a ∈ l1 := by
  obtain ⟨_, _, _, hord, _, _⟩ := sortBatch_invariants batch fuel out hnd hs
  have hp : strTruthy b.parent_id = true := by
    rw [hpb]
    simpa [strTruthy] using hane
  have hf : batchFind batch (b.parent_id.getD "") = some a := by
    rw [hpb]
    exact batchFind_eq_some batch hnd a a.id ha rfl
  exact hord l1 b l2 hdec hp a hf

/-- Counterexample to C4 as stated: record `B` refers to record `A` whose id is
the empty string; the reference is falsy in Python, so `B` stays before `A` in
the computed order. -/
theorem c4_empty_id_not_reordered :
    sortBatch 3 [sampleIn "b" (some ""), sampleIn "" none] =
      some [sampleIn "b" (some ""), sampleIn "" none] ∧
      (sampleIn "b" (some "")).parent_id = some (sampleIn "" none).id := by
  exact ⟨by rfl, by rfl⟩

/-- Witness for C4: the two-record batch submitted child-first still gets the
parent inserted first. -/
theorem c4_import_parent_before_child_witness :
    sampleIn "a" none ∈ [sampleIn "a" none] :=
  c4_import_parent_before_child [sampleIn "b" (some "a"), sampleIn "a" none] 3
    [sampleIn "a" none, sampleIn "b" (some "a")] [sampleIn "a" none] []
    (sampleIn "a" none) (sampleIn "b" (some "a"))
    (by decide) (by rfl) (by rfl) (by decide) (by rfl) (by decide)

/-! ## Import write-loop lemmas (C6, C1, C3) -/

theorem findById_spec (s : Store) (i : String) (t : TaskRec)
    (h : findById s i = some t) : t ∈ s ∧ t.id = i :=
  find_id_spec (fun r => r.id) s i t (by simpa [findById] using h)

theorem findById_eq_some (s : Store) (hnd : (storeIds s).Nodup) (t : TaskRec)
    (i : String) (ht : t ∈ s) (hi : t.id = i) : findById s i = some t := by
  unfold findById
  exact find_id_eq_some (fun r => r.id) s (by simpa [storeIds] using hnd) t i ht hi

theorem findById_ne_none (s : Store) (t : TaskRec) (ht : t ∈ s) :
    findById s t.id ≠ none := by
  intro h
  unfold findById at h
  rw [List.find?_eq_none] at h
  have := h t ht
  simp at this

theorem importStep_ok (onc : Policy) (ex : List String) (acc : Nat × Store)
    (task : TaskIO) (hsup : ∀ i ∈ ex, i ∈ storeIds acc.2) :
    (importStep onc ex acc task).1 = acc.1 + 1 ∧
      (∀ i ∈ ex, i ∈ storeIds (importStep onc ex acc task).2) := by
  unfold importStep
  by_cases hco : onc = .upsert ∧ ex.contains task.id
  · rw [if_pos hco]
    have hid : task.id ∈ storeIds acc.2 := hsup _ (by simpa using hco.2)
    obtain ⟨t0, ht0, hti⟩ := List.mem_map.mp hid
    cases hfind : findById acc.2 task.id with
    | none =>
      exfalso
      rw [← hti] at hfind
      exact findById_ne_none acc.2 t0 ht0 hfind
    | some db =>
      have hdb := findById_spec acc.2 task.id db hfind
      refine ⟨rfl, ?_⟩
      intro i hi
      have hids : storeIds (acc.2.map
          (fun x => if x.id = task.id then applyUpsert db task else x)) =
          storeIds acc.2 := by
        unfold storeIds
        rw [List.map_map]
        apply List.map_congr_left
        intro x hx
        by_cases hxi : x.id = task.id
        · simp [Function.comp, hxi, applyUpsert, hdb.2]
        · simp [Function.comp, hxi]
      rw [hids]
      exact hsup i hi
  · rw [if_neg hco]
    refine ⟨rfl, ?_⟩
    intro i hi
    unfold storeIds
    rw [List.map_append]
    exact List.mem_append_left _ (hsup i hi)

theorem importFold_spec (onc : Policy) (ex : List String) :
    ∀ (sorted : List TaskIO) (c : Nat) (st : Store),
      (∀ i ∈ ex, i ∈ storeIds st) →
      (sorted.foldl (importStep onc ex) (c, st)).1 = c + sorted.length ∧
        (∀ i ∈ ex, i ∈ storeIds (sorted.foldl (importStep onc ex) (c, st)).2) := by
  intro sorted
  induction sorted with
  | nil =>
    intro c st h
    exact ⟨by simp, h⟩
  | cons task sorted ih =>
    intro c st hsup
    rw [List.foldl_cons]
    obtain ⟨h1, h2⟩ := importStep_ok onc ex (c, st) task hsup
    have hfold := ih (importStep onc ex (c, st) task).1
      (importStep onc ex (c, st) task).2 h2
    constructor
    · show (sorted.foldl (importStep onc ex)
        ((importStep onc ex (c, st) task).1, (importStep onc ex (c, st) task).2)).1 = _
      rw [hfold.1, h1]
      simp only [List.length_cons]
      omega
    · intro i hi
      show i ∈ storeIds (sorted.foldl (importStep onc ex)
        ((importStep onc ex (c, st) task).1, (importStep onc ex (c, st) task).2)).2
      exact hfold.2 i hi

theorem idsOfIO_filter_nodup (p : TaskIO → Bool) (batch : List TaskIO)
    (hnd : (batchIds batch).Nodup) : (batchIds (batch.filter p)).Nodup := by
  have hsl : List.Sublist (batchIds (batch.filter p)) (batchIds batch) := by
    unfold batchIds
    exact (List.filter_sublist batch).map (fun t => t.id)
  exact hnd.sublist hsl

theorem existing_sub_store (s : Store) (q : TaskRec → Bool) (i : String)
    (h : i ∈ (s.filter q).map (fun t => t.id)) : i ∈ storeIds s := by
  obtain ⟨t, ht, hti⟩ := List.mem_map.mp h
  exact hti ▸ List.mem_map_of_mem _ (List.mem_of_mem_filter ht)

/-- **C6 (amended).**  `validate_only=true` never mutates the store, for every
policy; and whenever the corresponding non-validate run completes
successfully, the count it writes equals the count the validate-only run
reported.  (A batch with an in-batch parent cycle passes validation but the
real run dies on the recursion limit having written nothing — see the
counterexample.) -/
theorem c6_validate_only_frame_and_count (s : Store) (batch : List TaskIO)
    (pol : Policy) :
    (importTasks s batch true pol).2 = s ∧
      (∀ n m s2, importTasks s batch false pol = (.ok n, s2) →
        (importTasks s batch true pol).1 = .ok m → m = n) := by
  constructor
  · unfold importTasks
    dsimp only
    split
    · rfl
    · split
      · rfl
      · rfl
  · intro n m s2 hreal hval
    unfold importTasks at hreal hval
    dsimp only at hreal hval
    by_cases hdup : ¬ (batch.map (fun t => t.id)).Nodup
    · rw [if_pos hdup] at hreal
      simp at hreal
    · rw [if_neg hdup] at hreal hval
      generalize hexeq : (s.filter (fun t =>
        (batch.map (fun t => t.id)).contains t.id)).map (fun t => t.id) = ex
        at hreal hval
      by_cases hcf : ex ≠ [] ∧ pol = .fail
      · rw [if_pos hcf] at hreal
        simp at hreal
      · rw [if_neg hcf] at hreal hval
        generalize hb2eq : (if ex ≠ [] ∧ pol = .skip then
          batch.filter (fun t => ¬ ex.contains t.id) else batch) = b2
          at hreal hval
        have hm : b2.length = m := by simpa using hval
        simp only [Bool.false_eq_true, if_false] at hreal
        cases hsort : sortBatch (b2.length + 1) b2 with
        | none =>
          rw [hsort] at hreal
          simp at hreal
        | some sorted =>
          rw [hsort] at hreal
          dsimp only at hreal
          have hn : (sorted.foldl (importStep pol ex) (0, s)).1 = n := by
            have := congrArg Prod.fst hreal
            simpa using this
          have hnd2 : (batchIds b2).Nodup := by
            rw [← hb2eq]
            split
            · exact idsOfIO_filter_nodup _ batch (by simpa [batchIds] using not_not.mp hdup)
            · simpa [batchIds] using not_not.mp hdup
          have hperm := sortBatch_perm b2 (b2.length + 1) sorted hnd2 hsort
          have hsup : ∀ i ∈ ex, i ∈ storeIds s := by
            intro i hi
            rw [← hexeq] at hi
            exact existing_sub_store s _ i hi
          have hcount := (importFold_spec pol ex sorted 0 s hsup).1
          rw [← hm, ← hn, hcount, hperm.length_eq]
          simp

/-- Counterexample to C6 as stated: on a two-record parent cycle the
validate-only run reports 2, but the non-validate run with identical arguments
aborts on the recursion limit and writes nothing. -/
theorem c6_cycle_validate_mismatch :
    (importTasks [] [sampleIn "a" (some "b"), sampleIn "b" (some "a")] true .fail).1 =
        .ok 2 ∧
      importTasks [] [sampleIn "a" (some "b"), sampleIn "b" (some "a")] false .fail =
        (.error .recursionLimit, []) := by
  exact ⟨by rfl, by rfl⟩

/-- Witness for C6 at a concrete one-record batch: both runs agree on count 1. -/
theorem c6_validate_only_frame_and_count_witness : (1 : Nat) = 1 :=
  (c6_validate_only_frame_and_count [] [sampleIn "a" none] .fail).2 1 1
    [mkImportRec (sampleIn "a" none)] (by rfl) (by rfl)

/-! ## The hierarchy invariant (C1) -/

theorem buildCreate_id (now fid : String) (inp : TaskInput) :
    (buildCreate now fid inp).id = fid := by
  unfold buildCreate
  cases inp.tags <;> cases inp.metadata <;> dsimp only <;> split <;> rfl

theorem buildCreate_parent (now fid : String) (inp : TaskInput) :
    (buildCreate now fid inp).parent_id = inp.parent_id := by
  unfold buildCreate
  cases inp.tags <;> cases inp.metadata <;> dsimp only <;> split <;> rfl

theorem selfParentFree_mem (s : Store) (h : selfParentFree s = true)
    (t : TaskRec) (ht : t ∈ s) (hsp : t.parent_id = some t.id) : t.id = "" := by
  have := List.all_eq_true.mp h t ht
  simp only [hsp, Bool.or_eq_true, decide_eq_true_eq] at this
  rcases this with h1 | h2
  · exact absurd rfl h1
  · exact h2

theorem selfParentFree_of_forall (s : Store)
    (h : ∀ t ∈ s, t.parent_id = some t.id → t.id = "") :
    selfParentFree s = true := by
  apply List.all_eq_true.mpr
  intro t ht
  by_cases hsp : t.parent_id = some t.id
  · simp [h t ht hsp]
  · simp [hsp]

theorem createTask_selfparentfree (now fid : String) (inp : TaskInput)
    (s s2 : Store) (t : TaskRec) (hinv : selfParentFree s = true)
    (hfresh : findById s fid = none)
    (h : createTask now fid inp s = (.ok t, s2)) : selfParentFree s2 = true := by
  unfold createTask at h
  dsimp only at h
  have hone : s2 = s ++ [buildCreate now fid inp] ∧
      (strTruthy (buildCreate now fid inp).parent_id = true →
        ∃ u, findById s ((buildCreate now fid inp).parent_id.getD "") = some u) := by
    by_cases hp : strTruthy (buildCreate now fid inp).parent_id = true
    · rw [if_pos hp] at h
      cases hfd : findById s ((buildCreate now fid inp).parent_id.getD "") with
      | none => rw [hfd] at h; injection h with h1 _; cases h1
      | some u =>
        rw [hfd] at h
        injection h with _ h2
        exact ⟨h2.symm, fun _ => ⟨u, rfl⟩⟩
    · rw [if_neg hp] at h
      injection h with _ h2
      exact ⟨h2.symm, fun hc => absurd hc hp⟩
  rw [hone.1]
  apply selfParentFree_of_forall
  intro x hx hsp
  rcases List.mem_append.mp hx with hx1 | hx2
  · exact selfParentFree_mem s hinv x hx1 hsp
  · rw [List.mem_singleton.mp hx2] at hsp ⊢
    rw [buildCreate_parent, buildCreate_id] at hsp
    rw [buildCreate_id]
    by_cases hfe : fid = ""
    · exact hfe
    · exfalso
      have hp : strTruthy (buildCreate now fid inp).parent_id = true := by
        rw [buildCreate_parent, hsp]
        simpa [strTruthy] using hfe
      obtain ⟨u, hu⟩ := hone.2 hp
      rw [buildCreate_parent, hsp] at hu
      dsimp only [Option.getD] at hu
      rw [hu] at hfresh
      cases hfresh

theorem applyUpdate_parent (pl : TaskUpdatePayload) (s : Store) (tid : String)
    (t t9 : TaskRec) (h : applyUpdate pl s tid t = .ok t9) :
    t9.parent_id = t.parent_id ∨
      ∃ v, t9.parent_id = v ∧ (strTruthy v = true → v ≠ some tid) := by
  unfold applyUpdate at h
  cases hpa : pl.parent_id with
  | none =>
    rw [hpa] at h
    dsimp only at h
    cases h
    exact .inl (updateFields_parent_id pl t)
  | some v =>
    rw [hpa] at h
    dsimp only at h
    by_cases hv : strTruthy v = true
    · rw [if_pos hv] at h
      cases hfd : findById s (v.getD "") with
      | none => rw [hfd] at h; cases h
      | some u =>
        rw [hfd] at h
        by_cases hvt : v = some tid
        · rw [if_pos hvt] at h; cases h
        · rw [if_neg hvt] at h
          cases h
          exact .inr ⟨v, rfl, fun _ => hvt⟩
    · rw [if_neg hv] at h
      cases h
      exact .inr ⟨v, rfl, fun hc => absurd hc hv⟩

theorem finishUpdate_parent_id (now : String) (pl : TaskUpdatePayload)
    (old : Bool) (t9 : TaskRec) :
    (finishUpdate now pl old t9).parent_id = t9.parent_id := by
  unfold finishUpdate
  dsimp only
  split
  · split
    · rfl
    · split <;> rfl
  · rfl

theorem finishUpdate_id (now : String) (pl : TaskUpdatePayload)
    (old : Bool) (t9 : TaskRec) :
    (finishUpdate now pl old t9).id = t9.id := by
  unfold finishUpdate
  dsimp only
  split
  · split
    · rfl
    · split <;> rfl
  · rfl

theorem updateTask_selfparentfree (now tid : String) (pl : TaskUpdatePayload)
    (ius imatch : Option String) (s s2 : Store) (t2 : TaskRec)
    (hinv : selfParentFree s = true)
    (h : updateTask now tid pl ius imatch s = (.ok t2, s2)) :
    selfParentFree s2 = true := by
  unfold updateTask at h
  cases hft : findById s tid with
  | none => rw [hft] at h; injection h with h1 _; cases h1
  | some t =>
    rw [hft] at h
    dsimp only at h
    obtain ⟨htmem, htid⟩ := findById_spec s tid t hft
    cases hic : iusCheck t ius with
    | error e => rw [hic] at h; injection h with h1 _; cases h1
    | ok b =>
      rw [hic] at h
      cases b with
      | false => dsimp only at h; injection h with h1 _; cases h1
      | true =>
        dsimp only at h
        by_cases him : strTruthy imatch = true ∧ imatch ≠ some (calculateEtag t)
        · rw [if_pos him] at h; injection h with h1 _; cases h1
        · rw [if_neg him] at h
          cases happ : applyUpdate pl s tid t with
          | error e => rw [happ] at h; injection h with h1 _; cases h1
          | ok t9 =>
            rw [happ] at h
            dsimp only at h
            injection h with _ h2
            rw [← h2]
            apply selfParentFree_of_forall
            intro x hx hsp
            obtain ⟨x0, hx0, hx0e⟩ := List.mem_map.mp hx
            by_cases hxi : x0.id = tid
            · rw [if_pos hxi] at hx0e
              rw [← hx0e] at hsp ⊢
              rw [finishUpdate_parent_id, finishUpdate_id] at hsp
              rw [finishUpdate_id]
              have ht9id : t9.id = t.id :=
                (applyUpdate_ok pl s tid t t9 happ).2.2
              rcases applyUpdate_parent pl s tid t t9 happ with hsame | ⟨v, hv, hcon⟩
              · rw [hsame] at hsp
                rw [ht9id] at hsp
                have := selfParentFree_mem s hinv t htmem hsp
                rw [ht9id, this]
              · rw [hv] at hsp
                by_cases hvt : strTruthy v = true
                · exfalso
                  apply hcon hvt
                  rw [hsp, ht9id, htid]
                · rw [hsp] at hvt
                  rw [ht9id]
                  by_cases hte : t9.id = ""
                  · rw [← ht9id]; exact hte
                  · exfalso
                    apply hvt
                    simpa [strTruthy] using hte
            · rw [if_neg hxi] at hx0e
              rw [← hx0e] at hsp ⊢
              exact selfParentFree_mem s hinv x0 hx0 hsp

theorem importStep_selfparentfree (onc : Policy) (ex : List String)
    (acc : Nat × Store) (task : TaskIO)
    (hinv : selfParentFree acc.2 = true)
    (htask : task.parent_id = some task.id → task.id = "") :
    selfParentFree (importStep onc ex acc task).2 = true := by
  unfold importStep
  by_cases hco : onc = .upsert ∧ ex.contains task.id
  · rw [if_pos hco]
    cases hfind : findById acc.2 task.id with
    | none => exact hinv
    | some db =>
      dsimp only
      apply selfParentFree_of_forall
      intro x hx hsp
      obtain ⟨x0, hx0, hx0e⟩ := List.mem_map.mp hx
      by_cases hxi : x0.id = task.id
      · rw [if_pos hxi] at hx0e
        rw [← hx0e] at hsp ⊢
        have e1 : (applyUpsert db task).parent_id = task.parent_id := rfl
        have e2 : (applyUpsert db task).id = db.id := rfl
        have hdbid : db.id = task.id := (findById_spec _ _ _ hfind).2
        rw [e1, e2, hdbid] at hsp
        rw [e2, hdbid]
        exact htask hsp
      · rw [if_neg hxi] at hx0e
        rw [← hx0e] at hsp ⊢
        exact selfParentFree_mem acc.2 hinv x0 hx0 hsp
  · rw [if_neg hco]
    dsimp only
    apply selfParentFree_of_forall
    intro x hx hsp
    rcases List.mem_append.mp hx with hx1 | hx2
    · exact selfParentFree_mem acc.2 hinv x hx1 hsp
    · rw [List.mem_singleton.mp hx2] at hsp ⊢
      have e1 : (mkImportRec task).parent_id = task.parent_id := rfl
      have e2 : (mkImportRec task).id = task.id := rfl
      rw [e1, e2] at hsp
      rw [e2]
      exact htask hsp

theorem importFold_selfparentfree (onc : Policy) (ex : List String) :
    ∀ (sorted : List TaskIO) (c : Nat) (st : Store),
      (∀ task ∈ sorted, task.parent_id = some task.id → task.id = "") →
      selfParentFree st = true →
      selfParentFree (sorted.foldl (importStep onc ex) (c, st)).2 = true := by
  intro sorted
  induction sorted with
  | nil =>
    intro c st _ hinv
    exact hinv
  | cons task sorted ih =>
    intro c st hall hinv
    rw [List.foldl_cons]
    have hstep := importStep_selfparentfree onc ex (c, st) task hinv
      (hall task (List.mem_cons_self task sorted))
    have := ih (importStep onc ex (c, st) task).1 (importStep onc ex (c, st) task).2
      (fun x hx => hall x (List.mem_cons_of_mem task hx)) hstep
    exact this

theorem importTasks_selfparentfree (s : Store) (batch : List TaskIO)
    (v : Bool) (onc : Policy) (n : Nat) (s2 : Store)
    (hinv : selfParentFree s = true)
    (h : importTasks s batch v onc = (.ok n, s2)) : selfParentFree s2 = true := by
  unfold importTasks at h
  dsimp only at h
  by_cases hdup : ¬ (batch.map (fun t => t.id)).Nodup
  · rw [if_pos hdup] at h
    injection h with h1 _
    cases h1
  · rw [if_neg hdup] at h
    generalize hexeq : (s.filter (fun t =>
      (batch.map (fun t => t.id)).contains t.id)).map (fun t => t.id) = ex at h
    by_cases hcf : ex ≠ [] ∧ onc = .fail
    · rw [if_pos hcf] at h
      injection h with h1 _
      cases h1
    · rw [if_neg hcf] at h
      generalize hb2eq : (if ex ≠ [] ∧ onc = .skip then
        batch.filter (fun t => ¬ ex.contains t.id) else batch) = b2 at h
      have hnd2 : (batchIds b2).Nodup := by
        rw [← hb2eq]
        split
        · exact idsOfIO_filter_nodup _ batch (by simpa [batchIds] using not_not.mp hdup)
        · simpa [batchIds] using not_not.mp hdup
      by_cases hv : v = true
      · rw [hv] at h
        simp only [if_true] at h
        injection h with _ h2
        rw [← h2]
        exact hinv
      · rw [Bool.not_eq_true] at hv
        rw [hv] at h
        simp only [Bool.false_eq_true, if_false] at h
        cases hsort : sortBatch (b2.length + 1) b2 with
        | none =>
          rw [hsort] at h
          injection h with h1 _
          cases h1
        | some sorted =>
          rw [hsort] at h
          dsimp only at h
          injection h with _ h2
          rw [← h2]
          obtain ⟨hsub, _, _, _, hnocyc, _⟩ :=
            sortBatch_invariants b2 (b2.length + 1) sorted hnd2 hsort
          apply importFold_selfparentfree
          · intro task htk hsp
            by_contra hne
            apply hnocyc task htk
            refine ReachS.single (x := task) (y := task) ?_ ?_
            · rw [hsp]
              simpa [strTruthy] using hne
            · rw [hsp]
              exact batchFind_eq_some b2 hnd2 task task.id (hsub task htk) rfl
          · exact hinv

/-- **C1 (amended).**  The hierarchy invariant the code actually maintains
after create, update and bulk import: a stored task can equal its own parent
only when its id is the empty string.  Create validates any truthy parent
against the store (and a fresh uuid cannot be found there); update explicitly
rejects `parent_id = id`; import never writes a record whose truthy
`parent_id` equals its own id, because such a record makes the reordering
recurse forever — but an all-empty-string record bypasses every check (see the
counterexample). -/
theorem c1_no_self_parent_post_mutation :
    (∀ (now fid : String) (inp : TaskInput) (s s2 : Store) (t : TaskRec),
      selfParentFree s = true → findById s fid = none →
      createTask now fid inp s = (.ok t, s2) → selfParentFree s2 = true) ∧
      (∀ (now tid : String) (pl : TaskUpdatePayload) (ius imatch : Option String)
        (s s2 : Store) (t2 : TaskRec), selfParentFree s = true →
        updateTask now tid pl ius imatch s = (.ok t2, s2) →
        selfParentFree s2 = true) ∧
      (∀ (s : Store) (batch : List TaskIO) (v : Bool) (onc : Policy) (n : Nat)
        (s2 : Store), selfParentFree s = true →
        importTasks s batch v onc = (.ok n, s2) → selfParentFree s2 = true) :=
  ⟨fun now fid inp s s2 t hinv hfresh h =>
      createTask_selfparentfree now fid inp s s2 t hinv hfresh h,
   fun now tid pl ius imatch s s2 t2 hinv h =>
      updateTask_selfparentfree now tid pl ius imatch s s2 t2 hinv h,
   fun s batch v onc n s2 hinv h =>
      importTasks_selfparentfree s batch v onc n s2 hinv h⟩

/-- Counterexample to C1 as stated: a batch record with `id = ""` and
`parent_id = ""` is written by import as its own parent (the truthiness guards
skip both the reordering and every hierarchy check). -/
theorem c1_empty_id_self_parent_imported :
    (importTasks [] [sampleIn "" (some "")] false .fail).1 = .ok 1 ∧
      noSelfParent (importTasks [] [sampleIn "" (some "")] false .fail).2 = false := by
  exact ⟨by rfl, by rfl⟩

/-- Witness for C1: importing a well-formed record into the empty store keeps
the invariant. -/
theorem c1_no_self_parent_post_mutation_witness :
    selfParentFree [mkImportRec (sampleIn "a" none)] = true :=
  c1_no_self_parent_post_mutation.2.2 [] [sampleIn "a" none] false .fail 1
    [mkImportRec (sampleIn "a" none)] (by rfl) (by rfl)

/-! ## JSON round-trip on canonical tag columns (C3) -/

theorem plainChar_spec (c : Char) (h : plainChar c = true) :
    0x20 ≤ c.toNat ∧ c.toNat < 0x7f ∧ c ≠ '"' ∧ c ≠ '\\' := by
  simp only [plainChar, Bool.and_eq_true, decide_eq_true_eq, ne_eq,
    bne_iff_ne, decide_not, Bool.not_eq_true] at h
  refine ⟨h.1.1.1, h.1.1.2, ?_, ?_⟩
  · intro he
    rw [he] at h
    simpa using h.1.2
  · intro he
    rw [he] at h
    simpa using h.2

theorem jsonEscC_plain (c : Char) (h : plainChar c = true) : jsonEscC c = [c] := by
  obtain ⟨h1, h2, h3, h4⟩ := plainChar_spec c h
  have hlow : ∀ d : Char, d.toNat < 0x20 → c ≠ d := by
    intro d hd he
    rw [he] at h1
    omega
  unfold jsonEscC
  rw [if_neg h3, if_neg h4, if_neg (hlow '\n' (by decide)),
    if_neg (hlow '\t' (by decide)), if_neg (hlow '\r' (by decide)),
    if_neg (hlow '\x08' (by decide)), if_neg (hlow '\x0c' (by decide)),
    if_neg (by omega), if_pos h2]

theorem jsonEscL_plain (cs : List Char) (h : ∀ c ∈ cs, plainChar c = true) :
    jsonEscL cs = cs := by
  induction cs with
  | nil => rfl
  | cons c cs ih =>
    unfold jsonEscL at ih ⊢
    rw [List.flatMap_cons, jsonEscC_plain c (h c (List.mem_cons_self c cs)),
      ih (fun d hd => h d (List.mem_cons_of_mem c hd))]
    rfl

theorem parseJStr_plain (cs : List Char) (h : ∀ c ∈ cs, plainChar c = true)
    (r : List Char) : parseJStr (cs ++ '"' :: r) = some (cs, r) := by
  induction cs with
  | nil =>
    rw [List.nil_append, parseJStr.eq_def]
    dsimp only
    rw [if_pos rfl]
  | cons c cs ih =>
    obtain ⟨_, _, h3, h4⟩ := plainChar_spec c (h c (List.mem_cons_self c cs))
    rw [List.cons_append, parseJStr.eq_def]
    dsimp only
    rw [if_neg h3, if_neg h4, ih (fun d hd => h d (List.mem_cons_of_mem c hd))]

theorem parseJStr_quote_plain (cs : List Char) (h : ∀ c ∈ cs, plainChar c = true)
    (r : List Char) : parseJStr (jsonEscL cs ++ '"' :: r) = some (cs, r) := by
  rw [jsonEscL_plain cs h]
  exact parseJStr_plain cs h r

theorem jsonQuote_length (t : List Char) : 2 ≤ (jsonQuote t).length := by
  unfold jsonQuote
  simp

theorem jsonJoin_length (ts : List (List Char)) : ts.length ≤ (jsonJoin ts).length := by
  induction ts with
  | nil => simp [jsonJoin]
  | cons t ts ih =>
    cases ts with
    | nil =>
      have := jsonQuote_length t
      simp only [jsonJoin, List.length_singleton]
      omega
    | cons u rest =>
      have h1 := jsonQuote_length t
      have h2 : (u :: rest).length ≤ (jsonJoin (u :: rest)).length := ih
      simp only [jsonJoin, List.length_append, List.length_cons]
      simp only [List.length_cons] at h2
      omega

theorem parseJElems_join (ts : List (List Char)) :
    ∀ fuel, ts ≠ [] → (∀ g ∈ ts, ∀ c ∈ g, plainChar c = true) →
      ts.length ≤ fuel →
      parseJElems fuel (jsonJoin ts ++ [']']) = some ts := by
  induction ts with
  | nil => intro fuel hne; exact absurd rfl hne
  | cons t ts ih =>
    intro fuel _ hpl hfu
    cases fuel with
    | zero => simp at hfu
    | succ f =>
      have hplt : ∀ c ∈ t, plainChar c = true :=
        hpl t (List.mem_cons_self t ts)
      cases ts with
      | nil =>
        have hshape : jsonJoin [t] ++ [']'] = '"' :: (jsonEscL t ++ '"' :: [']']) := by
          simp [jsonJoin, jsonQuote]
        rw [hshape, parseJElems]
        rw [if_pos rfl, parseJStr_quote_plain t hplt [']']]
        rfl
      | cons u rest =>
        have hshape : jsonJoin (t :: u :: rest) ++ [']'] =
            '"' :: (jsonEscL t ++ '"' :: (',' :: ' ' :: (jsonJoin (u :: rest) ++ [']']))) := by
          show (jsonQuote t ++ ',' :: ' ' :: jsonJoin (u :: rest)) ++ [']'] = _
          simp [jsonQuote]
        rw [hshape, parseJElems]
        rw [if_pos rfl, parseJStr_quote_plain t hplt
          (',' :: ' ' :: (jsonJoin (u :: rest) ++ [']']))]
        dsimp only
        rw [if_neg (by simp), if_pos rfl, if_pos rfl]
        rw [ih f (by simp) (fun g hg => hpl g (List.mem_cons_of_mem t hg))
          (by simp only [List.length_cons] at hfu ⊢; omega)]
        rfl

theorem jsonJoin_cons_ne (t : List Char) (ts : List (List Char)) :
    jsonJoin (t :: ts) ++ [']'] ≠ [']'] := by
  intro h
  have hl := congrArg List.length h
  have h2 : 2 ≤ (jsonJoin (t :: ts)).length := by
    cases ts with
    | nil => simpa [jsonJoin] using jsonQuote_length t
    | cons u rest =>
      have := jsonQuote_length t
      simp only [jsonJoin, List.length_append, List.length_cons]
      omega
  simp only [List.length_append, List.length_singleton] at hl
  omega

theorem decTagsL_encTagsL (ts : List (List Char))
    (hpl : ∀ g ∈ ts, ∀ c ∈ g, plainChar c = true) :
    decTagsL (encTagsL ts) = some ts := by
  cases ts with
  | nil => rfl
  | cons t ts =>
    show decTagsL ('[' :: (jsonJoin (t :: ts) ++ [']'])) = some (t :: ts)
    rw [decTagsL.eq_def]
    dsimp only
    rw [if_pos rfl, if_neg (jsonJoin_cons_ne t ts)]
    apply parseJElems_join (t :: ts) _ (by simp) hpl
    have h1 := jsonJoin_length (t :: ts)
    have h2 : ('[' :: (jsonJoin (t :: ts) ++ [']'])).length =
        (jsonJoin (t :: ts)).length + 2 := by simp
    rw [h2]
    omega

theorem decTags_encTags (ts : List String)
    (hpl : ∀ g ∈ ts, plainStr g = true) : decTags (encTags ts) = some ts := by
  unfold decTags encTags
  have hd : (String.mk (encTagsL (ts.map String.data))).data =
      encTagsL (ts.map String.data) := rfl
  rw [hd, decTagsL_encTagsL (ts.map String.data) ?hp]
  case hp =>
    intro g hg c hc
    obtain ⟨s0, hs0, hs0e⟩ := List.mem_map.mp hg
    have := hpl s0 hs0
    unfold plainStr at this
    exact List.all_eq_true.mp this c (hs0e ▸ hc)
  dsimp only [Option.map]
  rw [List.map_map]
  congr 1
  refine List.map_congr_left ?_ |>.trans (List.map_id ts)
  intro s _
  rfl

theorem canonTag_spec (g : String) (h : canonTag g = true) :
    g ≠ "" ∧ pyStrip g = g ∧ plainStr g = true := by
  simp only [canonTag, Bool.and_eq_true, ne_eq, bne_iff_ne, decide_eq_true_eq] at h
  exact ⟨by simpa using h.1.1, by simpa using h.1.2, h.2⟩

theorem setTags_getTags (col : Option String) (h : wfTagsCol col = true) :
    setTags (getTags col) = col := by
  cases col with
  | none => rfl
  | some str =>
    rw [wfTagsCol] at h
    cases hdec : decTags str with
    | none => rw [hdec] at h; cases h
    | some ts =>
      rw [hdec] at h
      simp only [Bool.and_eq_true, ne_eq, decide_eq_true_eq] at h
      obtain ⟨⟨hne, hcanon⟩, henc⟩ := h
      have hg : getTags (some str) = ts := by
        show (decTags str).getD [] = ts
        rw [hdec]
        rfl
      rw [hg]
      unfold setTags
      rw [if_neg hne]
      have hstrip : ts.map pyStrip = ts := by
        refine (List.map_congr_left ?_).trans (List.map_id ts)
        intro g hg2
        exact (canonTag_spec g (List.all_eq_true.mp hcanon g hg2)).2.1
      rw [hstrip, henc]

theorem setMeta_getMeta (m : Option Meta) (h : wfMetaCol m = true) :
    setMeta (getMeta m) = m := by
  cases m with
  | none => rfl
  | some mm =>
    rw [wfMetaCol] at h
    unfold getMeta setMeta
    simp only [metaTruthy, ne_eq]
    simpa using h

/-- On a canonical stored row, serializing through the export schema and back
through the import insert reproduces the row exactly. -/
theorem mkImportRec_dbToTask (t : TaskRec) (h : wfRec t = true) :
    mkImportRec (dbToTask t) = t := by
  simp only [wfRec, Bool.and_eq_true] at h
  have h1 : setTags (getTags t.tags) = t.tags := setTags_getTags t.tags h.1
  have h2 : setMeta (getMeta t.task_metadata) = t.task_metadata :=
    setMeta_getMeta t.task_metadata h.2
  have hshape : mkImportRec (dbToTask t) =
      { t with tags := setTags (getTags t.tags),
               task_metadata := setMeta (getMeta t.task_metadata) } := rfl
  rw [hshape, h1, h2]

/-! ## Export structure (C3) -/

theorem exportTasks_perm (s : Store) : (exportTasks s).Perm (s.map dbToTask) := by
  unfold exportTasks
  dsimp only
  have h1 := (isortLe_perm createdAtLe (s.filter (fun t => t.parent_id = none))).append
    (isortLe_perm createdAtLe (s.filter (fun t => t.parent_id ≠ none)))
  have h2 : (s.filter (fun t => t.parent_id = none) ++
      s.filter (fun t => t.parent_id ≠ none)).Perm s := by
    have he : (fun (t : TaskRec) => decide (t.parent_id ≠ none)) =
        (fun (t : TaskRec) => ! decide (t.parent_id = none)) := by
      funext t
      simp [decide_not]
    show (s.filter (fun t => decide (t.parent_id = none)) ++
      s.filter (fun t => decide (t.parent_id ≠ none))).Perm s
    rw [he]
    exact List.filter_append_perm _ s
  exact (h1.trans h2).map dbToTask

theorem export_ids_perm (s : Store) :
    (batchIds (exportTasks s)).Perm (storeIds s) := by
  have h := (exportTasks_perm s).map (fun t => t.id)
  unfold batchIds storeIds
  rw [List.map_map] at h
  exact h

theorem export_nodup (s : Store) (hnd : (storeIds s).Nodup) :
    (batchIds (exportTasks s)).Nodup :=
  ((export_ids_perm s).nodup_iff).mpr hnd

theorem export_mem (s : Store) (x : TaskIO) :
    x ∈ exportTasks s ↔ ∃ t ∈ s, dbToTask t = x := by
  rw [(exportTasks_perm s).mem_iff]
  exact List.mem_map

theorem batchFind_export (s : Store) (hnd : (storeIds s).Nodup) (p : String) :
    batchFind (exportTasks s) p = (findById s p).map dbToTask := by
  cases hfd : findById s p with
  | some t =>
    obtain ⟨htm, hti⟩ := findById_spec s p t hfd
    have hmem : dbToTask t ∈ exportTasks s := (export_mem s _).mpr ⟨t, htm, rfl⟩
    exact batchFind_eq_some (exportTasks s) (export_nodup s hnd) (dbToTask t) p
      hmem hti
  | none =>
    show batchFind (exportTasks s) p = none
    unfold batchFind
    apply List.find?_eq_none.mpr
    intro x hx
    obtain ⟨t, htm, rfl⟩ := (export_mem s x).mp hx
    have h0 : s.find? (fun r => r.id = p) = none := hfd
    have h1 := List.find?_eq_none.mp h0 t htm
    simpa [dbToTask] using h1

theorem storeDepth_transfer (s : Store) (hnd : (storeIds s).Nodup) :
    ∀ (f : Nat) (t : TaskRec),
      batchDepth f (exportTasks s) (dbToTask t) = storeDepth f s t := by
  intro f
  induction f with
  | zero => intro t; rfl
  | succ f ih =>
    intro t
    rw [batchDepth, storeDepth]
    simp only [dbToTask]
    by_cases hp : strTruthy t.parent_id = true
    · rw [if_pos hp, if_pos hp, batchFind_export s hnd]
      cases findById s (t.parent_id.getD "") with
      | none => rfl
      | some pt =>
        simp only [Option.map]
        exact ih pt
    · rw [if_neg hp, if_neg hp]

theorem importFold_insert (ex : List String) :
    ∀ (sorted : List TaskIO) (c : Nat) (st : Store),
      sorted.foldl (importStep .fail ex) (c, st) =
        (c + sorted.length, st ++ sorted.map mkImportRec) := by
  intro sorted
  induction sorted with
  | nil => intro c st; simp
  | cons task sorted ih =>
    intro c st
    rw [List.foldl_cons]
    have hstep : importStep .fail ex (c, st) task =
        (c + 1, st ++ [mkImportRec task]) := by
      unfold importStep
      rw [if_neg (by rintro ⟨h1, _⟩; cases h1)]
    rw [hstep, ih]
    simp only [Prod.mk.injEq, List.length_cons, List.map_cons]
    refine ⟨by omega, by simp⟩

/-- **C3 (amended).**  For a well-formed store (unique ids, canonical columns)
whose stored parent graph is acyclic: exporting all tasks and re-importing the
exported records into an emptied store succeeds, writes exactly as many
records as the store held, and reproduces the same set of rows (a permutation,
every field included).  (On a store with a parent cycle, the re-import dies on
the recursion limit leaving the emptied store empty — see the
counterexample.) -/
theorem c3_export_import_roundtrip (s : Store) (hwf : wfStore s = true)
    (hacy : storeAcyclic s = true) :
    ∃ s2, importTasks [] (exportTasks s) false .fail = (.ok s.length, s2) ∧
      s2.Perm s := by
  have hwf2 := hwf
  simp only [wfStore, Bool.and_eq_true, decide_eq_true_eq] at hwf2
  have hnd : (storeIds s).Nodup := hwf2.1
  have hall : ∀ t ∈ s, wfRec t = true :=
    fun t ht => List.all_eq_true.mp hwf2.2 t ht
  have hndE : (batchIds (exportTasks s)).Nodup := export_nodup s hnd
  have hlenE : (exportTasks s).length = s.length := by
    have := (exportTasks_perm s).length_eq
    simpa using this
  have hdepth : ∀ x ∈ exportTasks s,
      batchDepth ((exportTasks s).length + 1) (exportTasks s) x = true := by
    intro x hx
    obtain ⟨t, htm, rfl⟩ := (export_mem s x).mp hx
    rw [storeDepth_transfer s hnd, hlenE]
    exact List.all_eq_true.mp hacy t htm
  obtain ⟨sorted, hsort⟩ :=
    sortBatch_some (exportTasks s) ((exportTasks s).length + 1) hdepth
  have hperm := sortBatch_perm (exportTasks s) ((exportTasks s).length + 1)
    sorted hndE hsort
  refine ⟨sorted.map mkImportRec, ?_, ?_⟩
  · unfold importTasks
    dsimp only
    rw [if_neg (not_not_intro (by simpa [batchIds] using hndE))]
    simp only [List.filter_nil, List.map_nil]
    rw [if_neg (show ¬(([] : List String) ≠ [] ∧ True) by simp)]
    simp only [Bool.false_eq_true, if_false]
    rw [if_neg (show ¬(([] : List String) ≠ [] ∧ Policy.fail = Policy.skip) by simp)]
    rw [hsort]
    dsimp only
    rw [importFold_insert]
    dsimp only
    rw [Prod.mk.injEq]
    refine ⟨?_, by simp⟩
    rw [hperm.length_eq, hlenE]
    simp
  · have h1 : (sorted.map mkImportRec).Perm ((exportTasks s).map mkImportRec) :=
      hperm.map _
    have h2 : ((exportTasks s).map mkImportRec).Perm
        ((s.map dbToTask).map mkImportRec) := (exportTasks_perm s).map _
    have h3 : (s.map dbToTask).map mkImportRec = s := by
      rw [List.map_map]
      refine (List.map_congr_left ?_).trans (List.map_id s)
      intro t ht
      exact mkImportRec_dbToTask t (hall t ht)
    rw [h3] at h2
    exact h1.trans h2

/-- Counterexample to C3 as stated: a (well-formed) store with a two-task
parent cycle is reachable through the API — the self-parent check is only
depth-1 — and its export cannot be re-imported: the reordering recursion
exhausts the recursion limit and the emptied store stays empty. -/
theorem c3_cycle_roundtrip_fails :
    wfStore [sampleRec "a" (some "b") none, sampleRec "b" (some "a") none] = true ∧
      importTasks []
        (exportTasks [sampleRec "a" (some "b") none, sampleRec "b" (some "a") none])
        false .fail = (.error .recursionLimit, []) := by
  exact ⟨by decide, by rfl⟩

/-- Witness for C3 at a concrete one-task store with a canonical tag column. -/
theorem c3_export_import_roundtrip_witness :
    ∃ s2, importTasks [] (exportTasks [sampleRec "a" none (setTags ["x"])]) false
        .fail = (.ok [sampleRec "a" none (setTags ["x"])].length, s2) ∧
      s2.Perm [sampleRec "a" none (setTags ["x"])] :=
  c3_export_import_roundtrip [sampleRec "a" none (setTags ["x"])]
    (by decide) (by decide)

/-! ## C2: the tag filter

`list_tasks` implements each tag filter as `tags LIKE '%"<tag>"%'` over the
JSON text of the column.  For filter tags whose characters are all `simpleChar`
the pattern degenerates to a case-insensitive substring search for `"tag"`,
and on a canonical column (written by `set_tags`) that substring occurs exactly
when the normalized tag is one of the stored tags — the amended C2.  A filter
tag containing the `LIKE` wildcards `%`/`_` breaks the claim as stated
(counterexample below). -/

theorem char_toNat_ofNat (n : Nat) (h : n < 55296) : (Char.ofNat n).toNat = n := by
  unfold Char.ofNat
  rw [dif_pos (Or.inl h)]
  unfold Char.ofNatAux Char.toNat
  simp [UInt32.ofNat', UInt32.toNat, BitVec.toNat_ofNatLt]

theorem lowC_toNat (c : Char) (h : 65 ≤ c.toNat ∧ c.toNat ≤ 90) :
    (lowC c).toNat = c.toNat + 32 := by
  unfold lowC
  rw [if_pos h]
  exact char_toNat_ofNat _ (by omega)

theorem lowC_fix (c : Char) (h : ¬(65 ≤ c.toNat ∧ c.toNat ≤ 90)) : lowC c = c := by
  unfold lowC
  exact if_neg h

theorem lowC_lowC (c : Char) : lowC (lowC c) = lowC c := by
  by_cases h : 65 ≤ c.toNat ∧ c.toNat ≤ 90
  · exact lowC_fix _ (by have := lowC_toNat c h; omega)
  · rw [lowC_fix c h, lowC_fix c h]

theorem lowC_ne_low (c d : Char) (hu : 65 ≤ c.toNat ∧ c.toNat ≤ 90)
    (hd : d.toNat < 97) : lowC c ≠ d := by
  intro he
  have ht := lowC_toNat c hu
  rw [he] at ht
  omega

theorem plainChar_lowC (c : Char) (h : plainChar c = true) :
    plainChar (lowC c) = true := by
  by_cases hu : 65 ≤ c.toNat ∧ c.toNat ≤ 90
  · have ht := lowC_toNat c hu
    simp only [plainChar, Bool.and_eq_true, decide_eq_true_eq]
    exact ⟨⟨⟨by omega, by omega⟩, lowC_ne_low c '"' hu (by decide)⟩,
      lowC_ne_low c '\\' hu (by decide)⟩
  · rw [lowC_fix c hu]
    exact h

theorem simpleChar_plain (c : Char) (h : simpleChar c = true) :
    plainChar c = true := by
  simp only [simpleChar, Bool.and_eq_true] at h
  exact h.1.1.1.1.1.1

theorem simpleChar_lowC (c : Char) (h : simpleChar c = true) :
    simpleChar (lowC c) = true := by
  have hpl := simpleChar_plain c h
  by_cases hu : 65 ≤ c.toNat ∧ c.toNat ≤ 90
  · simp only [simpleChar, Bool.and_eq_true, decide_eq_true_eq]
    exact ⟨⟨⟨⟨⟨⟨plainChar_lowC c hpl, lowC_ne_low c '%' hu (by decide)⟩,
      lowC_ne_low c '_' hu (by decide)⟩, lowC_ne_low c ',' hu (by decide)⟩,
      lowC_ne_low c ' ' hu (by decide)⟩, lowC_ne_low c '[' hu (by decide)⟩,
      lowC_ne_low c ']' hu (by decide)⟩
  · rw [lowC_fix c hu]
    exact h

theorem plainChar_ne_quote (c : Char) (h : plainChar c = true) : c ≠ '"' := by
  simp only [plainChar, Bool.and_eq_true, decide_eq_true_eq] at h
  exact h.1.2

theorem simpleChar_ne (c : Char) (h : simpleChar c = true) :
    c ≠ '"' ∧ c ≠ '%' ∧ c ≠ '_' ∧ c ≠ ',' ∧ c ≠ ' ' ∧ c ≠ '[' ∧ c ≠ ']' := by
  simp only [simpleChar, Bool.and_eq_true, decide_eq_true_eq] at h
  obtain ⟨⟨⟨⟨⟨⟨hpl, h1⟩, h2⟩, h3⟩, h4⟩, h5⟩, h6⟩ := h
  exact ⟨plainChar_ne_quote c hpl, h1, h2, h3, h4, h5, h6⟩

theorem lowL_lowL (w : List Char) : lowL (lowL w) = lowL w := by
  unfold lowL
  rw [List.map_map]
  exact List.map_congr_left (fun c _ => lowC_lowC c)

theorem mem_tailsL (s s2 : List Char) : s2 ∈ tailsL s ↔ s2 <:+ s := by
  induction s with
  | nil =>
    rw [show tailsL [] = [[]] from rfl, List.mem_singleton, List.suffix_nil]
  | cons c s2 ih =>
    rw [show tailsL (c :: s2) = (c :: s2) :: tailsL s2 from rfl, List.mem_cons, ih,
      List.suffix_cons_iff]

theorem likeMatch_lit_pct :
    ∀ (q : List Char), (∀ c ∈ q, c ≠ '%' ∧ c ≠ '_') →
    ∀ s, likeMatch (q ++ ['%']) s = true ↔ lowL q <+: lowL s := by
  intro q
  induction q with
  | nil =>
    intro _ s
    constructor
    · intro _
      exact List.nil_prefix
    · intro _
      show likeMatch ['%'] s = true
      rw [likeMatch.eq_def]
      dsimp only
      rw [if_pos rfl]
      apply List.any_eq_true.mpr
      exact ⟨[], (mem_tailsL s []).mpr List.nil_suffix, rfl⟩
  | cons c q2 ih =>
    intro hq s
    have hc := hq c (List.mem_cons_self c q2)
    have hq2 : ∀ d ∈ q2, d ≠ '%' ∧ d ≠ '_' :=
      fun d hd => hq d (List.mem_cons_of_mem c hd)
    show likeMatch (c :: (q2 ++ ['%'])) s = true ↔ _
    rw [likeMatch.eq_def]
    dsimp only
    rw [if_neg hc.1, if_neg hc.2]
    cases s with
    | nil =>
      dsimp only
      constructor
      · intro h
        cases h
      · intro h
        exact absurd (List.prefix_nil.mp h) (by simp [lowL])
    | cons d s2 =>
      dsimp only
      rw [Bool.and_eq_true]
      constructor
      · rintro ⟨h1, h2⟩
        show (lowC c :: lowL q2) <+: (lowC d :: lowL s2)
        exact List.cons_prefix_cons.mpr ⟨by simpa [eqCI] using h1, (ih hq2 s2).mp h2⟩
      · intro h
        have h2 := List.cons_prefix_cons.mp
          (show (lowC c :: lowL q2) <+: (lowC d :: lowL s2) from h)
        exact ⟨by simpa [eqCI] using h2.1, (ih hq2 s2).mpr h2.2⟩

theorem likeMatch_pct_wrap (q : List Char) (hq : ∀ c ∈ q, c ≠ '%' ∧ c ≠ '_')
    (s : List Char) :
    likeMatch ('%' :: (q ++ ['%'])) s = true ↔
      ∃ s2, s2 <:+ s ∧ lowL q <+: lowL s2 := by
  rw [likeMatch.eq_def]
  dsimp only
  rw [if_pos rfl, List.any_eq_true]
  constructor
  · rintro ⟨s2, hmem, hm⟩
    exact ⟨s2, (mem_tailsL s s2).mp hmem, (likeMatch_lit_pct q hq s2).mp hm⟩
  · rintro ⟨s2, hsuf, hpre⟩
    exact ⟨s2, (mem_tailsL s s2).mpr hsuf, (likeMatch_lit_pct q hq s2).mpr hpre⟩

theorem suffix_split (t Z s2 : List Char) (h : s2 <:+ t ++ Z) :
    s2 <:+ Z ∨ ∃ t2, t2 <:+ t ∧ t2 ≠ [] ∧ s2 = t2 ++ Z := by
  induction t with
  | nil => exact Or.inl (by simpa using h)
  | cons c t2 ih =>
    rcases List.suffix_cons_iff.mp (show s2 <:+ c :: (t2 ++ Z) from h) with h1 | h2
    · exact Or.inr ⟨c :: t2, List.suffix_refl _, by simp, by rw [h1]; rfl⟩
    · rcases ih h2 with ha | ⟨t3, hs, hne, heq⟩
      · exact Or.inl ha
      · exact Or.inr ⟨t3, hs.trans (List.suffix_cons c t2), hne, heq⟩

theorem pref_quote_eq :
    ∀ (w t Z : List Char), (∀ c ∈ w, c ≠ '"') → (∀ c ∈ t, c ≠ '"') →
    (w ++ ['"']) <+: (t ++ '"' :: Z) → w = t := by
  intro w
  induction w with
  | nil =>
    intro t Z _ htq h
    cases t with
    | nil => rfl
    | cons c t2 =>
      exfalso
      have h1 := (List.cons_prefix_cons.mp
        (show ('"' :: ([] : List Char)) <+: (c :: (t2 ++ '"' :: Z)) from h)).1
      exact htq c (List.mem_cons_self c t2) h1.symm
  | cons a w2 ih =>
    intro t Z hwq htq h
    cases t with
    | nil =>
      exfalso
      have h1 := (List.cons_prefix_cons.mp
        (show (a :: (w2 ++ ['"'])) <+: ('"' :: Z) from h)).1
      exact hwq a (List.mem_cons_self a w2) h1
    | cons c t2 =>
      have h1 := List.cons_prefix_cons.mp
        (show (a :: (w2 ++ ['"'])) <+: (c :: (t2 ++ '"' :: Z)) from h)
      rw [ih t2 Z (fun d hd => hwq d (List.mem_cons_of_mem a hd))
        (fun d hd => htq d (List.mem_cons_of_mem c hd)) h1.2, h1.1]

theorem suffix_of_map (f : Char → Char) (u : List Char) :
    ∀ (s : List Char), u <:+ s.map f → ∃ s2, s2 <:+ s ∧ s2.map f = u := by
  intro s
  induction s with
  | nil =>
    intro h
    exact ⟨[], List.suffix_refl _, (List.suffix_nil.mp h).symm⟩
  | cons c s2 ih =>
    intro h
    rcases List.suffix_cons_iff.mp h with h1 | h2
    · exact ⟨c :: s2, List.suffix_refl _, h1.symm⟩
    · obtain ⟨s3, hs, hm⟩ := ih h2
      exact ⟨s3, hs.trans (List.suffix_cons c s2), hm⟩

theorem quoted_decomp (w : List Char) :
    ∀ (M : List (List Char)), w ∈ M →
    ∃ a b, jsonJoin M = a ++ (jsonQuote w ++ b) := by
  intro M
  induction M with
  | nil =>
    intro h
    cases h
  | cons t rest ih =>
    intro hm
    rcases List.mem_cons.mp hm with rfl | hr
    · cases rest with
      | nil => exact ⟨[], [], by simp [jsonJoin]⟩
      | cons u rs =>
        refine ⟨[], ',' :: ' ' :: jsonJoin (u :: rs), ?_⟩
        rw [show jsonJoin (w :: u :: rs) =
          jsonQuote w ++ ',' :: ' ' :: jsonJoin (u :: rs) from rfl]
        simp
    · cases rest with
      | nil => cases hr
      | cons u rs =>
        obtain ⟨a, b, heq⟩ := ih hr
        refine ⟨jsonQuote t ++ ',' :: ' ' :: a, b, ?_⟩
        rw [show jsonJoin (t :: u :: rs) =
          jsonQuote t ++ ',' :: ' ' :: jsonJoin (u :: rs) from rfl, heq]
        simp

theorem quoted_aux (w : List Char) (hw : w ≠ [])
    (hws : ∀ c ∈ w, simpleChar c = true) :
    ∀ (M : List (List Char)), (∀ t ∈ M, t ≠ [] ∧ ∀ c ∈ t, plainChar c = true) →
    ∀ s2, s2 <:+ jsonJoin M ++ [']'] → ('"' :: (w ++ ['"'])) <+: s2 → w ∈ M := by
  have hwq : ∀ c ∈ w, c ≠ '"' := fun c hc => (simpleChar_ne c (hws c hc)).1
  intro M
  induction M with
  | nil =>
    intro _ s2 hs hp
    exfalso
    rcases List.suffix_cons_iff.mp (show s2 <:+ (']' :: []) from hs) with h1 | h2
    · rw [h1] at hp
      exact absurd (List.cons_prefix_cons.mp hp).1 (by decide)
    · rw [List.suffix_nil.mp h2] at hp
      exact absurd (List.prefix_nil.mp hp) (by simp)
  | cons t rest ih =>
    intro hM s2 hs hp
    obtain ⟨htne, htpl⟩ := hM t (List.mem_cons_self t rest)
    have hMr := fun u hu => hM u (List.mem_cons_of_mem t hu)
    have htq : ∀ c ∈ t, c ≠ '"' := fun c hc => plainChar_ne_quote c (htpl c hc)
    cases rest with
    | nil =>
      have htxt : jsonJoin [t] ++ [']'] = '"' :: (t ++ '"' :: [']']) := by
        show ('"' :: (jsonEscL t ++ ['"'])) ++ [']'] = _
        rw [jsonEscL_plain t htpl]
        simp
      rw [htxt] at hs
      rcases List.suffix_cons_iff.mp hs with h1 | h2
      · rw [h1] at hp
        have h3 := (List.cons_prefix_cons.mp hp).2
        exact List.mem_cons.mpr (Or.inl (pref_quote_eq w t [']'] hwq htq h3))
      · rcases suffix_split t ('"' :: [']']) s2 h2 with h3 | ⟨t2, ht2, ht2ne, rfl⟩
        · rcases List.suffix_cons_iff.mp h3 with h4 | h5
          · rw [h4] at hp
            have h6 := (List.cons_prefix_cons.mp hp).2
            exfalso
            cases w with
            | nil => exact hw rfl
            | cons a w2 =>
              have h7 := (List.cons_prefix_cons.mp
                (show (a :: (w2 ++ ['"'])) <+: (']' :: []) from h6)).1
              exact (simpleChar_ne a (hws a (List.mem_cons_self a w2))).2.2.2.2.2.2 h7
          · exfalso
            rcases List.suffix_cons_iff.mp h5 with h6 | h7
            · rw [h6] at hp
              exact absurd (List.cons_prefix_cons.mp hp).1 (by decide)
            · rw [List.suffix_nil.mp h7] at hp
              exact absurd (List.prefix_nil.mp hp) (by simp)
        · exfalso
          cases t2 with
          | nil => exact ht2ne rfl
          | cons c t3 =>
            have h4 := (List.cons_prefix_cons.mp
              (show ('"' :: (w ++ ['"'])) <+: (c :: (t3 ++ ('"' :: [']']))) from hp)).1
            exact htq c (ht2.subset (List.mem_cons_self c t3)) h4.symm
    | cons u rs =>
      have htxt : jsonJoin (t :: u :: rs) ++ [']'] =
          '"' :: (t ++ '"' :: (',' :: ' ' :: (jsonJoin (u :: rs) ++ [']']))) := by
        show (('"' :: (jsonEscL t ++ ['"'])) ++ ',' :: ' ' :: jsonJoin (u :: rs)) ++ [']'] = _
        rw [jsonEscL_plain t htpl]
        simp
      rw [htxt] at hs
      rcases List.suffix_cons_iff.mp hs with h1 | h2
      · rw [h1] at hp
        have h3 := (List.cons_prefix_cons.mp hp).2
        exact List.mem_cons.mpr (Or.inl (pref_quote_eq w t _ hwq htq h3))
      · rcases suffix_split t _ s2 h2 with h3 | ⟨t2, ht2, ht2ne, rfl⟩
        · rcases List.suffix_cons_iff.mp h3 with h4 | h5
          · rw [h4] at hp
            have h6 := (List.cons_prefix_cons.mp hp).2
            exfalso
            cases w with
            | nil => exact hw rfl
            | cons a w2 =>
              have h7 := (List.cons_prefix_cons.mp
                (show (a :: (w2 ++ ['"'])) <+:
                  (',' :: (' ' :: (jsonJoin (u :: rs) ++ [']']))) from h6)).1
              exact (simpleChar_ne a (hws a (List.mem_cons_self a w2))).2.2.2.1 h7
          · rcases List.suffix_cons_iff.mp h5 with h6 | h7
            · rw [h6] at hp
              exact absurd (List.cons_prefix_cons.mp hp).1 (by decide)
            · rcases List.suffix_cons_iff.mp h7 with h8 | h9
              · rw [h8] at hp
                exact absurd (List.cons_prefix_cons.mp hp).1 (by decide)
              · exact List.mem_cons_of_mem t (ih hMr s2 h9 hp)
        · exfalso
          cases t2 with
          | nil => exact ht2ne rfl
          | cons c t3 =>
            have h4 := (List.cons_prefix_cons.mp
              (show ('"' :: (w ++ ['"'])) <+:
                (c :: (t3 ++ ('"' :: (',' :: ' ' ::
                  (jsonJoin (u :: rs) ++ [']']))))) from hp)).1
            exact htq c (ht2.subset (List.mem_cons_self c t3)) h4.symm

theorem quoted_in_encTags (w : List Char) (hw : w ≠ [])
    (hws : ∀ c ∈ w, simpleChar c = true)
    (M : List (List Char)) (hM : ∀ t ∈ M, t ≠ [] ∧ ∀ c ∈ t, plainChar c = true) :
    (∃ s2, s2 <:+ encTagsL M ∧ ('"' :: (w ++ ['"'])) <+: s2) ↔ w ∈ M := by
  constructor
  · rintro ⟨s2, hs, hp⟩
    rw [show encTagsL M = '[' :: (jsonJoin M ++ [']']) from rfl] at hs
    rcases List.suffix_cons_iff.mp hs with h1 | h2
    · rw [h1] at hp
      exact absurd (List.cons_prefix_cons.mp hp).1 (by decide)
    · exact quoted_aux w hw hws M hM s2 h2 hp
  · intro hm
    obtain ⟨a, b, heq⟩ := quoted_decomp w M hm
    refine ⟨jsonQuote w ++ (b ++ [']']), ⟨'[' :: a, ?_⟩, ?_⟩
    · rw [show encTagsL M = '[' :: (jsonJoin M ++ [']']) from rfl, heq]
      simp
    · rw [show jsonQuote w = '"' :: (jsonEscL w ++ ['"']) from rfl,
        jsonEscL_plain w (fun c hc => simpleChar_plain c (hws c hc))]
      exact List.prefix_append _ _

theorem lowL_jsonQuote (t : List Char) (ht : ∀ c ∈ t, plainChar c = true) :
    lowL (jsonQuote t) = jsonQuote (lowL t) := by
  have hpl : ∀ c ∈ lowL t, plainChar c = true := by
    intro c hc
    obtain ⟨a, ha, rfl⟩ := List.mem_map.mp hc
    exact plainChar_lowC a (ht a ha)
  rw [show jsonQuote t = '"' :: (jsonEscL t ++ ['"']) from rfl,
    show jsonQuote (lowL t) = '"' :: (jsonEscL (lowL t) ++ ['"']) from rfl,
    jsonEscL_plain t ht, jsonEscL_plain (lowL t) hpl]
  have hq : lowC '"' = '"' := by decide
  simp [lowL, hq]

theorem lowL_jsonJoin :
    ∀ (M : List (List Char)), (∀ t ∈ M, ∀ c ∈ t, plainChar c = true) →
    lowL (jsonJoin M) = jsonJoin (M.map lowL) := by
  intro M
  induction M with
  | nil => intro _; rfl
  | cons t rest ih =>
    intro hM
    have ht := hM t (List.mem_cons_self t rest)
    have hMr := fun u hu => hM u (List.mem_cons_of_mem t hu)
    cases rest with
    | nil =>
      show lowL (jsonQuote t) = jsonJoin [lowL t]
      rw [lowL_jsonQuote t ht]
      rfl
    | cons u rs =>
      show lowL (jsonQuote t ++ ',' :: ' ' :: jsonJoin (u :: rs)) =
        jsonQuote (lowL t) ++ ',' :: ' ' :: jsonJoin ((u :: rs).map lowL)
      rw [show lowL (jsonQuote t ++ ',' :: ' ' :: jsonJoin (u :: rs)) =
        lowL (jsonQuote t) ++ lowC ',' :: lowC ' ' :: lowL (jsonJoin (u :: rs)) from by
          simp [lowL]]
      rw [lowL_jsonQuote t ht, ih hMr, (by decide : lowC ',' = ','),
        (by decide : lowC ' ' = ' ')]

theorem lowL_encTagsL (M : List (List Char))
    (hM : ∀ t ∈ M, ∀ c ∈ t, plainChar c = true) :
    lowL (encTagsL M) = encTagsL (M.map lowL) := by
  rw [show encTagsL M = '[' :: (jsonJoin M ++ [']']) from rfl,
    show encTagsL (M.map lowL) = '[' :: (jsonJoin (M.map lowL) ++ [']']) from rfl,
    show lowL ('[' :: (jsonJoin M ++ [']'])) =
      lowC '[' :: (lowL (jsonJoin M) ++ lowL [']']) from by simp [lowL],
    lowL_jsonJoin M hM, (by decide : lowC '[' = '['),
    (by decide : lowL [']'] = [']'])]

theorem tagLike_iff_mem (ft : String) (hft : simpleStr (pyStrip ft) = true)
    (ts : List String) (hts : ts.all canonTag = true) :
    tagLike ft (some (encTags ts)) = true ↔ lowS (pyStrip ft) ∈ ts.map lowS := by
  simp only [simpleStr, Bool.and_eq_true, decide_eq_true_eq, List.all_eq_true] at hft
  have hwne0 : (pyStrip ft).data ≠ [] := by
    intro hnil
    exact hft.1 (String.ext_iff.mpr (by rw [hnil]))
  have hwne : lowL (pyStrip ft).data ≠ [] := by
    intro h
    exact hwne0 (List.map_eq_nil_iff.mp h)
  have hwsimple : ∀ c ∈ lowL (pyStrip ft).data, simpleChar c = true := by
    intro c hc
    obtain ⟨a, ha, rfl⟩ := List.mem_map.mp hc
    exact simpleChar_lowC a (hft.2 a ha)
  have hcanon : ∀ g ∈ ts, canonTag g = true := List.all_eq_true.mp hts
  have hMplain : ∀ t ∈ ts.map String.data, ∀ c ∈ t, plainChar c = true := by
    intro t htm c hc
    obtain ⟨g, hg, rfl⟩ := List.mem_map.mp htm
    have hcg := hcanon g hg
    simp only [canonTag, Bool.and_eq_true, decide_eq_true_eq] at hcg
    exact List.all_eq_true.mp hcg.2 c hc
  have hM : ∀ t ∈ ts.map String.data, t ≠ [] ∧ ∀ c ∈ t, plainChar c = true := by
    intro t htm
    refine ⟨?_, hMplain t htm⟩
    obtain ⟨g, hg, rfl⟩ := List.mem_map.mp htm
    have hcg := hcanon g hg
    simp only [canonTag, Bool.and_eq_true, decide_eq_true_eq] at hcg
    intro hnil
    exact hcg.1.1 (String.ext_iff.mpr (by rw [hnil]))
  have hM2 : ∀ t ∈ (ts.map String.data).map lowL,
      t ≠ [] ∧ ∀ c ∈ t, plainChar c = true := by
    intro t htm
    obtain ⟨t0, ht0, rfl⟩ := List.mem_map.mp htm
    obtain ⟨h1, h2⟩ := hM t0 ht0
    constructor
    · intro h
      exact h1 (List.map_eq_nil_iff.mp h)
    · intro c hc
      obtain ⟨a, ha, rfl⟩ := List.mem_map.mp hc
      exact plainChar_lowC a (h2 a ha)
  have hq : ∀ c ∈ '"' :: (lowL (pyStrip ft).data ++ ['"']), c ≠ '%' ∧ c ≠ '_' := by
    intro c hc
    rcases List.mem_cons.mp hc with rfl | hc2
    · exact ⟨by decide, by decide⟩
    · rcases List.mem_append.mp hc2 with hc3 | hc4
      · have hcs := simpleChar_ne c (hwsimple c hc3)
        exact ⟨hcs.2.1, hcs.2.2.1⟩
      · rw [List.mem_singleton.mp hc4]
        exact ⟨by decide, by decide⟩
  show likeMatch ('%' :: '"' :: ((lowS (pyStrip ft)).data ++ ['"', '%']))
    (encTags ts).data = true ↔ _
  have hpat : '%' :: '"' :: ((lowS (pyStrip ft)).data ++ ['"', '%']) =
      '%' :: (('"' :: ((lowS (pyStrip ft)).data ++ ['"'])) ++ ['%']) := by simp
  rw [hpat, show (lowS (pyStrip ft)).data = lowL (pyStrip ft).data from rfl,
    likeMatch_pct_wrap _ hq _]
  have hql : lowL ('"' :: (lowL (pyStrip ft).data ++ ['"'])) =
      '"' :: (lowL (pyStrip ft).data ++ ['"']) := by
    rw [show lowL ('"' :: (lowL (pyStrip ft).data ++ ['"'])) =
      lowC '"' :: (lowL (lowL (pyStrip ft).data) ++ lowL ['"']) from by simp [lowL],
      lowL_lowL ((pyStrip ft).data), (by decide : lowC '"' = '"'),
      (by decide : lowL ['"'] = ['"'])]
  rw [hql, show (encTags ts).data = encTagsL (ts.map String.data) from rfl]
  constructor
  · rintro ⟨s2, hsuf, hpre⟩
    have h2 : lowL s2 <:+ lowL (encTagsL (ts.map String.data)) := hsuf.map lowC
    rw [lowL_encTagsL _ hMplain] at h2
    have hmem := (quoted_in_encTags _ hwne hwsimple _ hM2).mp ⟨lowL s2, h2, hpre⟩
    obtain ⟨t0, ht0, heq⟩ := List.mem_map.mp hmem
    obtain ⟨g, hg, rfl⟩ := List.mem_map.mp ht0
    exact List.mem_map.mpr ⟨g, hg, String.ext_iff.mpr heq⟩
  · intro hmem
    have hmem2 : lowL (pyStrip ft).data ∈ (ts.map String.data).map lowL := by
      obtain ⟨g, hg, heq⟩ := List.mem_map.mp hmem
      exact List.mem_map.mpr
        ⟨g.data, List.mem_map.mpr ⟨g, hg, rfl⟩, String.ext_iff.mp heq⟩
    obtain ⟨u, husuf, hupre⟩ := (quoted_in_encTags _ hwne hwsimple _ hM2).mpr hmem2
    rw [← lowL_encTagsL _ hMplain] at husuf
    obtain ⟨s2, hs2, hmap⟩ := suffix_of_map lowC u (encTagsL (ts.map String.data)) husuf
    refine ⟨s2, hs2, ?_⟩
    rw [show lowL s2 = List.map lowC s2 from rfl, hmap]
    exact hupre

theorem fTags_iff (p : ListParams) (t : TaskRec) (fts : List String)
    (htag : p.tag = some fts)
    (hfts : ∀ ft ∈ fts, simpleStr (pyStrip ft) = true)
    (ht : wfTagsCol t.tags = true) :
    fTags p t = true ↔
      ∀ ft ∈ fts, lowS (pyStrip ft) ∈ (getTags t.tags).map lowS := by
  unfold fTags
  rw [htag]
  dsimp only
  rw [List.all_eq_true]
  cases htg : t.tags with
  | none =>
    constructor
    · intro h ft hft
      have h1 := h ft hft
      rw [show tagLike ft none = false from rfl] at h1
      cases h1
    · intro h ft hft
      have h1 := h ft hft
      rw [show getTags none = [] from rfl] at h1
      exact absurd h1 (by simp)
  | some str =>
    rw [htg] at ht
    unfold wfTagsCol at ht
    dsimp only at ht
    cases hdec : decTags str with
    | none =>
      rw [hdec] at ht
      dsimp only at ht
      cases ht
    | some ts0 =>
      rw [hdec] at ht
      dsimp only at ht
      simp only [Bool.and_eq_true, decide_eq_true_eq] at ht
      obtain ⟨⟨hne0, hall0⟩, henc0⟩ := ht
      have hget : getTags (some str) = ts0 := by
        show (decTags str).getD [] = ts0
        rw [hdec]
        rfl
      rw [hget]
      constructor
      · intro h ft hft
        have h1 := h ft hft
        rw [← henc0] at h1
        exact (tagLike_iff_mem ft (hfts ft hft) ts0 hall0).mp h1
      · intro h ft hft
        rw [← henc0]
        exact (tagLike_iff_mem ft (hfts ft hft) ts0 hall0).mpr (h ft hft)

/-- **C2 (amended).**  With the tag filter supplied (pagination not
truncating, the stored column canonical as `set_tags` writes it, and every
filter tag trim-normalizing to a non-empty string of `simpleChar`s — no `LIKE`
wildcards or JSON punctuation), a stored task is in the result iff the other
filters pass and every supplied tag, stripped and lower-cased, is among the
task's stored tags compared case-insensitively.  For filter tags containing
`%` or `_` the claim as stated is false (see the counterexample). -/
theorem c2_tag_filter_conjunctive (p : ListParams) (s : Store)
    (hoff : p.offset = 0) (hlim : (listTasks p s).2 ≤ p.limit)
    (fts : List String) (htag : p.tag = some fts)
    (hfts : ∀ ft ∈ fts, simpleStr (pyStrip ft) = true)
    (t : TaskRec) (ht : wfTagsCol t.tags = true) :
    t ∈ (listTasks p s).1 ↔
      t ∈ s ∧
        (fCompleted p t && fArchived p t && fPriority p t && fParent p t &&
          fSearch p t && fDueBefore p t && fDueAfter p t && fOverdue p t) = true ∧
        ∀ ft ∈ fts, lowS (pyStrip ft) ∈ (getTags t.tags).map lowS := by
  rw [mem_listTasks_page p s hoff hlim]
  have hiff := fTags_iff p t fts htag hfts ht
  unfold matchesFilters
  constructor
  · rintro ⟨hmem, hf⟩
    simp only [Bool.and_eq_true] at hf
    obtain ⟨⟨⟨⟨⟨⟨⟨⟨h1, h2⟩, h3⟩, h4⟩, h5⟩, h6⟩, h7⟩, h8⟩, h9⟩ := hf
    refine ⟨hmem, ?_, hiff.mp h5⟩
    simp only [Bool.and_eq_true]
    exact ⟨⟨⟨⟨⟨⟨⟨h1, h2⟩, h3⟩, h4⟩, h6⟩, h7⟩, h8⟩, h9⟩
  · rintro ⟨hmem, hof, htags⟩
    simp only [Bool.and_eq_true] at hof
    obtain ⟨⟨⟨⟨⟨⟨⟨h1, h2⟩, h3⟩, h4⟩, h6⟩, h7⟩, h8⟩, h9⟩ := hof
    refine ⟨hmem, ?_⟩
    simp only [Bool.and_eq_true]
    exact ⟨⟨⟨⟨⟨⟨⟨⟨h1, h2⟩, h3⟩, h4⟩, hiff.mpr htags⟩, h6⟩, h7⟩, h8⟩, h9⟩

/-- Counterexample to C2 as stated: the filter value reaches SQLite `LIKE`
unescaped, so `_` in a filter tag matches any stored character.  The filter
tag `wo_k` is not among the stored tags of a task tagged `["work"]` under the
claimed strip-and-case-insensitive comparison, yet the listing returns the
task. -/
theorem c2_like_wildcard_false_match :
    (∀ g ∈ getTags (setTags ["work"]), lowS (pyStrip "wo_k") ≠ lowS g) ∧
      (listTasks { defaultParams with tag := some ["wo_k"] }
          [sampleRec "a" none (setTags ["work"])]).1 =
        [sampleRec "a" none (setTags ["work"])] := by
  exact ⟨by decide, by rfl⟩

/-- Witness for C2 at the specification's own example: a task tagged
`["Work", "Urgent", "extra"]` is returned for the filter `["work", "urgent"]`. -/
theorem c2_tag_filter_conjunctive_witness :
    sampleRec "a" none (setTags ["Work", "Urgent", "extra"]) ∈
      (listTasks { defaultParams with tag := some ["work", "urgent"] }
        [sampleRec "a" none (setTags ["Work", "Urgent", "extra"])]).1 :=
  (c2_tag_filter_conjunctive { defaultParams with tag := some ["work", "urgent"] }
    [sampleRec "a" none (setTags ["Work", "Urgent", "extra"])]
    rfl (by decide) ["work", "urgent"] rfl (by decide)
    (sampleRec "a" none (setTags ["Work", "Urgent", "extra"])) (by decide)).mpr
    (by decide)

end TaskServer
